import Mathlib

/-!
# Verification of the upifinder consistency engine

A shallow embedding of the core of `busoc/upifinder`: the sequence-number
range set (`inRanges`, `types.go`), the per-partition aggregate (`Coze`),
the gap detector (`checkFiles`, `check.go` and the range-set backed variant),
the record comparison (`File.Compare`), and the filename decoder and archive
scanner (`scan.go`).

Machine integers: Go `uint32` values are modelled as `Nat` together with the
wrap-around operations `wadd`/`wsub` (addition and subtraction modulo `2^32`),
applied exactly where the Go source performs `uint32` arithmetic.  Go `time.Time`
values are modelled as `Nat` (an instant on a linear clock, `0` = the zero
instant, `time.Time.IsZero`), and `time.Duration` as `Int`.
-/

/-- `2^32`, the modulus of Go `uint32` arithmetic. -/
def M32 : Nat := 4294967296

/-- Wrap-around `uint32` addition (`a + b` in Go on `uint32`). -/
def wadd (a b : Nat) : Nat := (a + b) % M32

/-- Wrap-around `uint32` subtraction (`a - b` in Go on `uint32`). -/
def wsub (a b : Nat) : Nat := (a + M32 - b) % M32

theorem M32_pos : 0 < M32 := by decide

/-- On in-range operands, wrap-around subtraction with `b ≤ a` is plain
subtraction. -/
theorem wsub_eq_sub (a b : Nat) (ha : a < M32) (hb : b ≤ a) :
    wsub a b = a - b := by
  unfold wsub
  have h1 : a + M32 - b = (a - b) + M32 := by omega
  rw [h1, Nat.add_mod_right]
  exact Nat.mod_eq_of_lt (by omega)

/-- On in-range operands with `a < b`, wrap-around subtraction wraps. -/
theorem wsub_eq_wrap (a b : Nat) (_hb : b < M32) (hab : a < b) :
    wsub a b = a + M32 - b := by
  unfold wsub
  exact Nat.mod_eq_of_lt (by omega)

theorem wsub_eq_one_iff (a b : Nat) (ha : a < M32) (hb : b < M32) (hba : b < a) :
    wsub a b = 1 ↔ a = b + 1 := by
  rw [wsub_eq_sub a b ha (Nat.le_of_lt hba)]
  omega

theorem wadd_one_eq_iff (p q : Nat) (hp : p < M32) (hq : q < M32) (hpq : p < q) :
    q = wadd p 1 ↔ q = p + 1 := by
  unfold wadd
  rcases Nat.lt_or_ge (p + 1) M32 with h | h
  · rw [Nat.mod_eq_of_lt h]
  · have hp1 : p = M32 - 1 := by omega
    have : (p + 1) % M32 = 0 := by
      subst hp1
      simp [M32]
    rw [this]
    omega

/-!
## Go `sort.Search`

`sort.Search(n, f)` performs binary search on `[0, n)`: it returns the least
`i` with `f i` true, assuming `f` is monotone (`false ... false true ... true`);
`n` if there is none.  Modelled with explicit fuel so that it is structurally
recursive (fuel `j - i` always suffices since the window shrinks each step).
-/

def goSearchF (f : Nat → Bool) : Nat → Nat → Nat → Nat
  | 0, i, _ => i
  | fuel + 1, i, j =>
    if i < j then
      if f ((i + j) / 2) then goSearchF f fuel i ((i + j) / 2)
      else goSearchF f fuel ((i + j) / 2 + 1) j
    else i

/-- Go `sort.Search` over the index window `[i, j)`. -/
def goSearch (f : Nat → Bool) (i j : Nat) : Nat := goSearchF f (j - i) i j

theorem goSearchF_ge (f : Nat → Bool) :
    ∀ (fuel i j : Nat), i ≤ goSearchF f fuel i j := by
  intro fuel
  induction fuel with
  | zero => intro i j; simp [goSearchF]
  | succ n ih =>
    intro i j
    simp only [goSearchF]
    split
    · split
      · exact ih i ((i + j) / 2)
      · exact le_trans (by omega) (ih ((i + j) / 2 + 1) j)
    · exact le_refl i

theorem goSearchF_le (f : Nat → Bool) :
    ∀ (fuel i j : Nat), i ≤ j → goSearchF f fuel i j ≤ j := by
  intro fuel
  induction fuel with
  | zero => intro i j h; simpa [goSearchF]
  | succ n ih =>
    intro i j h
    simp only [goSearchF]
    split
    · rename_i hij
      split
      · exact le_trans (ih i ((i + j) / 2) (by omega)) (by omega)
      · exact ih ((i + j) / 2 + 1) j (by omega)
    · exact h

theorem goSearchF_found (f : Nat → Bool) :
    ∀ (fuel i j : Nat), j - i ≤ fuel → goSearchF f fuel i j < j →
      f (goSearchF f fuel i j) = true := by
  intro fuel
  induction fuel with
  | zero =>
    intro i j hfu hlt
    simp only [goSearchF] at hlt
    omega
  | succ n ih =>
    intro i j hfu hlt
    simp only [goSearchF] at hlt ⊢
    by_cases hij : i < j
    · rw [if_pos hij] at hlt ⊢
      by_cases hfm : f ((i + j) / 2) = true
      · rw [if_pos hfm] at hlt ⊢
        rcases Nat.lt_or_ge (goSearchF f n i ((i + j) / 2)) ((i + j) / 2) with hc | hc
        · exact ih i ((i + j) / 2) (by omega) hc
        · have hub := goSearchF_le f n i ((i + j) / 2) (by omega)
          have heq : goSearchF f n i ((i + j) / 2) = (i + j) / 2 := by omega
          rw [heq]
          exact hfm
      · rw [if_neg hfm] at hlt ⊢
        exact ih ((i + j) / 2 + 1) j (by omega) hlt
    · rw [if_neg hij] at hlt
      omega

theorem goSearchF_below (f : Nat → Bool) :
    ∀ (fuel i j : Nat), j - i ≤ fuel →
      (∀ a b, a ≤ b → b < j → f a = true → f b = true) →
      ∀ k, i ≤ k → k < goSearchF f fuel i j → f k = false := by
  intro fuel
  induction fuel with
  | zero =>
    intro i j hfu hmono k hik hk
    simp only [goSearchF] at hk
    omega
  | succ n ih =>
    intro i j hfu hmono k hik hk
    simp only [goSearchF] at hk
    by_cases hij : i < j
    · rw [if_pos hij] at hk
      by_cases hfm : f ((i + j) / 2) = true
      · rw [if_pos hfm] at hk
        exact ih i ((i + j) / 2) (by omega)
          (fun a b hab hbj hfa => hmono a b hab (by omega) hfa) k hik hk
      · rw [if_neg hfm] at hk
        rcases Nat.lt_or_ge k ((i + j) / 2 + 1) with hc | hc
        · cases hfk : f k with
          | false => rfl
          | true =>
            have hm2 : f ((i + j) / 2) = true :=
              hmono k ((i + j) / 2) (by omega) (by omega) hfk
            exact absurd hm2 hfm
        · exact ih ((i + j) / 2 + 1) j (by omega) hmono k hc hk
    · rw [if_neg hij] at hk
      omega

/-- Characterisation: on a monotone predicate, Go `sort.Search` returns the
least index in `[i, j)` satisfying `f`, and `j` if there is none. -/
theorem goSearch_eq_of (f : Nat → Bool) (i j k : Nat) (hij : i ≤ j)
    (hmono : ∀ a b, a ≤ b → b < j → f a = true → f b = true)
    (hik : i ≤ k) (hkj : k ≤ j)
    (hbelow : ∀ a, i ≤ a → a < k → f a = false)
    (hat : k < j → f k = true) :
    goSearch f i j = k := by
  unfold goSearch
  rcases Nat.lt_trichotomy (goSearchF f (j - i) i j) k with h | h | h
  · have h1 := goSearchF_found f (j - i) i j (le_refl _) (by omega)
    have h2 := hbelow _ (goSearchF_ge f (j - i) i j) h
    rw [h1] at h2
    exact absurd h2 (by simp)
  · exact h
  · have hub := goSearchF_le f (j - i) i j hij
    have h1 := goSearchF_below f (j - i) i j (le_refl _) hmono k hik h
    have h2 := hat (by omega)
    rw [h2] at h1
    exact absurd h1 (by simp)

/-!
## The Range Set (`types.go`)

`Range` is a closed interval of sequence numbers (`types.go` lines 48-67),
`inRanges` (`types.go` lines 356-398) inserts one value into the sorted list
of ranges, returning the updated list and whether the value was already
present.  Go slices of `*Range` with in-place mutation are modelled as
functional list updates (`List.set`, `List.take`/`List.drop` splices).
-/

structure Range where
  first : Nat
  last : Nat
deriving DecidableEq, Repr

/-- Default element used for (always in-bounds) Go slice indexing. -/
def dfltR : Range := ⟨0, 0⟩

@[simp] theorem Range.first_mk (a b : Nat) : (Range.mk a b).first = a := rfl

@[simp] theorem Range.last_mk (a b : Nat) : (Range.mk a b).last = b := rfl

/-- `Range.Has` (`types.go` line 57): `r.First <= v && r.Last >= v`. -/
def Range.has (r : Range) (v : Nat) : Bool :=
  decide (r.first ≤ v) && decide (v ≤ r.last)

/-- `Range.Total` (`types.go` line 53): `r.Last - r.First` on `uint32`. -/
def Range.total (r : Range) : Nat := wsub r.last r.first

/-- `single` (`types.go` line 65). -/
def Range.single (v : Nat) : Range := ⟨v, v⟩

/-- `inRanges` (`types.go` lines 356-398).  The trailing `return seen, true`
of the Go source is unreachable (every preceding branch returns).  The Go
sequence `seen[ix].First = v` followed by the conditional merge with
`seen[ix-1]` is modelled by its net effect on the slice. -/
def inRanges (seen : List Range) (v : Nat) : List Range × Bool :=
  let n := seen.length
  if n = 0 then ([Range.single v], false)
  else
    let ix := goSearch (fun i => decide (v ≤ (seen.getD i dfltR).last)) 0 n
    if n ≤ ix then
      let lastR := seen.getD (n - 1) dfltR
      if wsub v lastR.last = 1 then (seen.set (n - 1) ⟨lastR.first, v⟩, false)
      else (seen ++ [Range.single v], false)
    else
      let cur := seen.getD ix dfltR
      if cur.has v then (seen, true)
      else if wsub cur.first v = 1 then
        if 0 < ix ∧ wsub v (seen.getD (ix - 1) dfltR).last = 1 then
          (seen.take (ix - 1) ++
            ⟨(seen.getD (ix - 1) dfltR).first, cur.last⟩ :: seen.drop (ix + 1),
           false)
        else (seen.set ix ⟨v, cur.last⟩, false)
      else if ix = 0 then (Range.single v :: seen, false)
      else if wsub v (seen.getD (ix - 1) dfltR).last = 1 then
        (seen.set (ix - 1) ⟨(seen.getD (ix - 1) dfltR).first, v⟩, false)
      else (seen.take ix ++ Range.single v :: seen.drop ix, false)

/-- The range-list invariant, as a computable predicate: every range is a
closed interval `first ≤ last`, and consecutive ranges are strictly sorted
with at least one whole missing value between them (`prev.last + 1 < next.first`:
no overlap, no touching, no adjacency). -/
def rangesOkB : List Range → Bool
  | [] => true
  | r :: t =>
    decide (r.first ≤ r.last) &&
    (match t with
     | [] => true
     | s :: _ => decide (r.last + 1 < s.first)) &&
    rangesOkB t

/-- All range bounds below `2^32` (true of every reachable state, since only
`uint32` values are inserted). -/
def rangesLtB (l : List Range) : Bool := l.all (fun r => decide (r.last < M32))

/-- `x` is covered by one of the ranges of `l`. -/
def Memb (l : List Range) (x : Nat) : Prop := ∃ r ∈ l, r.first ≤ x ∧ x ≤ r.last

instance : DecidablePred (fun p : List Range × Nat => Memb p.1 p.2) := by
  intro p
  unfold Memb
  infer_instance

instance membDecidable (l : List Range) (x : Nat) : Decidable (Memb l x) := by
  unfold Memb
  infer_instance

/-- The reference reimplementation of `inRanges`, by structural recursion on
the range list; `inRanges_eq_insA` below proves it equal to `inRanges` on
every invariant-satisfying list, and all order/canonicity arguments are
carried out on it. -/
def insA (v : Nat) : List Range → List Range × Bool
  | [] => ([Range.single v], false)
  | [r] =>
    if v < r.first then
      if r.first = v + 1 then ([⟨v, r.last⟩], false)
      else ([Range.single v, r], false)
    else if v ≤ r.last then ([r], true)
    else if v = r.last + 1 then ([⟨r.first, v⟩], false)
    else ([r, Range.single v], false)
  | r :: s :: t2 =>
    if v < r.first then
      if r.first = v + 1 then (⟨v, r.last⟩ :: s :: t2, false)
      else (Range.single v :: r :: s :: t2, false)
    else if v ≤ r.last then (r :: s :: t2, true)
    else if v < s.first then
      if s.first = v + 1 then
        if v = r.last + 1 then (⟨r.first, s.last⟩ :: t2, false)
        else (r :: ⟨v, s.last⟩ :: t2, false)
      else if v = r.last + 1 then (⟨r.first, v⟩ :: s :: t2, false)
      else (r :: Range.single v :: s :: t2, false)
    else
      let p := insA v (s :: t2)
      (r :: p.1, p.2)

theorem okB_cons (r : Range) (t : List Range) (h : rangesOkB (r :: t) = true) :
    r.first ≤ r.last ∧ rangesOkB t = true := by
  unfold rangesOkB at h
  cases t with
  | nil =>
    simp only [Bool.and_eq_true, decide_eq_true_eq] at h
    exact ⟨h.1.1, h.2⟩
  | cons s t2 =>
    simp only [Bool.and_eq_true, decide_eq_true_eq] at h
    exact ⟨h.1.1, h.2⟩

theorem okB_cons_cons (r s : Range) (t : List Range)
    (h : rangesOkB (r :: s :: t) = true) :
    r.first ≤ r.last ∧ r.last + 1 < s.first ∧ rangesOkB (s :: t) = true := by
  unfold rangesOkB at h
  simp only [Bool.and_eq_true, decide_eq_true_eq] at h
  exact ⟨h.1.1, h.1.2, h.2⟩

theorem okB_of_parts (r : Range) (t : List Range) (h1 : r.first ≤ r.last)
    (h2 : rangesOkB t = true)
    (h3 : ∀ s t2, t = s :: t2 → r.last + 1 < s.first) :
    rangesOkB (r :: t) = true := by
  unfold rangesOkB
  cases t with
  | nil => simp [h1, rangesOkB]
  | cons s t2 =>
    simp only [Bool.and_eq_true, decide_eq_true_eq]
    exact ⟨⟨h1, h3 s t2 rfl⟩, h2⟩

/-- Every range in the tail starts strictly beyond `r.last + 1`. -/
theorem okB_first_gt (r : Range) (t : List Range)
    (h : rangesOkB (r :: t) = true) : ∀ s ∈ t, r.last + 1 < s.first := by
  induction t generalizing r with
  | nil => intro s hs; cases hs
  | cons s t2 ih =>
    intro u hu
    obtain ⟨h1, h2, h3⟩ := okB_cons_cons r s t2 h
    rcases List.mem_cons.mp hu with hu | hu
    · subst hu; exact h2
    · have hsf := okB_cons s t2 h3
      have := ih s h3 u hu
      omega

theorem memb_nil (x : Nat) : ¬ Memb [] x := by
  intro h
  obtain ⟨r, hr, _⟩ := h
  cases hr

theorem memb_cons (r : Range) (t : List Range) (x : Nat) :
    Memb (r :: t) x ↔ (r.first ≤ x ∧ x ≤ r.last) ∨ Memb t x := by
  unfold Memb
  constructor
  · rintro ⟨u, hu, h1, h2⟩
    rcases List.mem_cons.mp hu with hu | hu
    · subst hu; exact Or.inl ⟨h1, h2⟩
    · exact Or.inr ⟨u, hu, h1, h2⟩
  · rintro (⟨h1, h2⟩ | ⟨u, hu, h1, h2⟩)
    · exact ⟨r, List.mem_cons_self r t, h1, h2⟩
    · exact ⟨u, List.mem_cons_of_mem r hu, h1, h2⟩

/-- A value below the head range is in no range of an invariant list. -/
theorem memb_lt_first (r : Range) (t : List Range)
    (h : rangesOkB (r :: t) = true) (x : Nat) (hx : x < r.first) :
    ¬ Memb (r :: t) x := by
  intro hm
  obtain ⟨u, hu, h1, h2⟩ := hm
  rcases List.mem_cons.mp hu with hu | hu
  · subst hu; omega
  · have := okB_first_gt r t h u hu
    have := (okB_cons r t h).1
    omega

/-- A value in the tail of an invariant list is beyond the head's upper bound
plus one. -/
theorem memb_tail_gt (r : Range) (t : List Range)
    (h : rangesOkB (r :: t) = true) (x : Nat) (hm : Memb t x) :
    r.last + 1 < x + 1 ∧ r.last + 1 ≤ x := by
  obtain ⟨u, hu, h1, h2⟩ := hm
  have := okB_first_gt r t h u hu
  omega

theorem rangesLtB_cons (r : Range) (t : List Range) :
    rangesLtB (r :: t) = true ↔ r.last < M32 ∧ rangesLtB t = true := by
  simp [rangesLtB]

/-- Upper bounds of an invariant list are monotone in the index. -/
theorem okB_last_mono (l : List Range) (h : rangesOkB l = true) :
    ∀ a b, a ≤ b → b < l.length → (l.getD a dfltR).last ≤ (l.getD b dfltR).last := by
  induction l with
  | nil => intro a b hab hb; simp at hb
  | cons r t ih =>
    intro a b hab hb
    cases a with
    | zero =>
      cases b with
      | zero => exact le_refl _
      | succ b2 =>
        simp only [List.getD_cons_zero, List.getD_cons_succ]
        cases t with
        | nil => simp only [List.length_cons, List.length_nil] at hb; omega
        | cons s t2 =>
          obtain ⟨h1, h2, h3⟩ := okB_cons_cons r s t2 h
          have hs := okB_cons s t2 h3
          have hstep : r.last ≤ ((s :: t2).getD 0 dfltR).last := by
            simp only [List.getD_cons_zero]
            omega
          calc r.last ≤ ((s :: t2).getD 0 dfltR).last := hstep
            _ ≤ ((s :: t2).getD b2 dfltR).last := by
                apply ih h3 0 b2 (Nat.zero_le _)
                simpa using hb
    | succ a2 =>
      cases b with
      | zero => omega
      | succ b2 =>
        simp only [List.getD_cons_succ]
        exact ih (okB_cons r t h).2 a2 b2 (by omega) (by simpa using hb)

/-- Monotonicity of the `inRanges` search predicate on an invariant list. -/
theorem searchPred_mono (l : List Range) (h : rangesOkB l = true) (v : Nat) :
    ∀ a b, a ≤ b → b < l.length →
      decide (v ≤ (l.getD a dfltR).last) = true →
      decide (v ≤ (l.getD b dfltR).last) = true := by
  intro a b hab hb ha
  simp only [decide_eq_true_eq] at ha ⊢
  exact le_trans ha (okB_last_mono l h a b hab hb)

theorem goSearch_ge (f : Nat → Bool) (i j : Nat) : i ≤ goSearch f i j :=
  goSearchF_ge f (j - i) i j

theorem goSearch_le (f : Nat → Bool) (i j : Nat) (h : i ≤ j) :
    goSearch f i j ≤ j :=
  goSearchF_le f (j - i) i j h

theorem goSearch_found (f : Nat → Bool) (i j : Nat)
    (h : goSearch f i j < j) : f (goSearch f i j) = true :=
  goSearchF_found f (j - i) i j (le_refl _) h

theorem goSearch_below (f : Nat → Bool) (i j : Nat)
    (hmono : ∀ a b, a ≤ b → b < j → f a = true → f b = true)
    (k : Nat) (hik : i ≤ k) (hk : k < goSearch f i j) : f k = false :=
  goSearchF_below f (j - i) i j (le_refl _) hmono k hik hk

theorem inRanges_insA_caseA (v : Nat) (r : Range) (t : List Range)
    (hok : rangesOkB (r :: t) = true) (hlt : rangesLtB (r :: t) = true)
    (hv : v < M32) (hA : v ≤ r.last) :
    inRanges (r :: t) v = insA v (r :: t) := by
  obtain ⟨hrfl, hokt⟩ := okB_cons r t hok
  have hrlt : r.last < M32 := ((rangesLtB_cons r t).mp hlt).1
  have hix : goSearch (fun i => decide (v ≤ ((r :: t).getD i dfltR).last)) 0
      ((r :: t).length) = 0 := by
    apply goSearch_eq_of _ 0 _ 0 (Nat.zero_le _)
      (searchPred_mono (r :: t) hok v) (le_refl 0) (Nat.zero_le _)
    · intro a ha1 ha2; omega
    · intro _
      simp only [List.getD_cons_zero, decide_eq_true_eq]
      exact hA
  simp only [inRanges, hix]
  rw [if_neg (by simp), if_neg (by simp)]
  simp only [List.getD_cons_zero]
  by_cases hA1 : r.first ≤ v
  · have hhas : r.has v = true := by
      simp only [Range.has, Bool.and_eq_true, decide_eq_true_eq]
      exact ⟨hA1, hA⟩
    rw [if_pos hhas]
    cases t with
    | nil =>
      simp only [insA]
      rw [if_neg (by omega), if_pos hA]
    | cons s t2 =>
      simp only [insA]
      rw [if_neg (by omega), if_pos hA]
  · have hhas : ¬ (r.has v = true) := by
      simp only [Range.has, Bool.and_eq_true, decide_eq_true_eq]
      omega
    rw [if_neg hhas]
    have hw1 : wsub r.first v = 1 ↔ r.first = v + 1 :=
      wsub_eq_one_iff r.first v (by omega) hv (by omega)
    by_cases hA2 : r.first = v + 1
    · rw [if_pos (hw1.mpr hA2), if_neg (by simp)]
      cases t with
      | nil =>
        simp only [insA]
        rw [if_pos (by omega : v < r.first), if_pos hA2]
        simp
      | cons s t2 =>
        simp only [insA]
        rw [if_pos (by omega : v < r.first), if_pos hA2]
        simp
    · rw [if_neg (fun hc => hA2 (hw1.mp hc)), if_pos trivial]
      cases t with
      | nil =>
        simp only [insA]
        rw [if_pos (by omega : v < r.first), if_neg hA2]
      | cons s t2 =>
        simp only [insA]
        rw [if_pos (by omega : v < r.first), if_neg hA2]

theorem inRanges_insA_caseB (v : Nat) (r : Range)
    (hok : rangesOkB [r] = true) (hlt : rangesLtB [r] = true)
    (hv : v < M32) (hB : r.last < v) :
    inRanges [r] v = insA v [r] := by
  obtain ⟨hrfl, _⟩ := okB_cons r [] hok
  have hrlt : r.last < M32 := ((rangesLtB_cons r []).mp hlt).1
  have hix : goSearch (fun i => decide (v ≤ (([r] : List Range).getD i dfltR).last)) 0
      (([r] : List Range).length) = 1 := by
    apply goSearch_eq_of _ 0 _ 1 (by simp)
      (searchPred_mono [r] hok v) (Nat.zero_le _) (by simp)
    · intro a ha1 ha2
      have ha0 : a = 0 := by omega
      subst ha0
      simp only [List.getD_cons_zero, decide_eq_false_iff_not, not_le]
      exact hB
    · intro h
      simp only [List.length_singleton] at h
      omega
  simp only [inRanges, hix]
  rw [if_neg (by simp), if_pos (by simp)]
  simp only [List.length_singleton, Nat.sub_self, List.getD_cons_zero]
  have hw1 : wsub v r.last = 1 ↔ v = r.last + 1 :=
    wsub_eq_one_iff v r.last hv (by omega) hB
  by_cases hB1 : v = r.last + 1
  · rw [if_pos (hw1.mpr hB1)]
    simp only [insA]
    rw [if_neg (by omega), if_neg (by omega), if_pos hB1]
    simp
  · rw [if_neg (fun hc => hB1 (hw1.mp hc))]
    simp only [insA]
    rw [if_neg (by omega), if_neg (by omega), if_neg hB1]
    simp [Range.single]

theorem inRanges_insA_caseC (v : Nat) (r s : Range) (t2 : List Range)
    (hok : rangesOkB (r :: s :: t2) = true) (hlt : rangesLtB (r :: s :: t2) = true)
    (hv : v < M32) (hB : r.last < v) (hC : v < s.first) :
    inRanges (r :: s :: t2) v = insA v (r :: s :: t2) := by
  obtain ⟨hrfl, hgap, hokt⟩ := okB_cons_cons r s t2 hok
  have hsfl : s.first ≤ s.last := (okB_cons s t2 hokt).1
  have hrlt : r.last < M32 := ((rangesLtB_cons r (s :: t2)).mp hlt).1
  have hslt : s.last < M32 :=
    ((rangesLtB_cons s t2).mp ((rangesLtB_cons r (s :: t2)).mp hlt).2).1
  have hix : goSearch (fun i => decide (v ≤ ((r :: s :: t2).getD i dfltR).last)) 0
      ((r :: s :: t2).length) = 1 := by
    apply goSearch_eq_of _ 0 _ 1 (Nat.zero_le _)
      (searchPred_mono (r :: s :: t2) hok v) (Nat.zero_le _) (by simp)
    · intro a ha1 ha2
      have ha0 : a = 0 := by omega
      subst ha0
      simp only [List.getD_cons_zero, decide_eq_false_iff_not, not_le]
      exact hB
    · intro _
      simp only [List.getD_cons_succ, List.getD_cons_zero, decide_eq_true_eq]
      omega
  simp only [inRanges, hix]
  rw [if_neg (by simp), if_neg (by simp)]
  simp only [List.getD_cons_succ, List.getD_cons_zero, Nat.sub_self]
  have hhas : ¬ (s.has v = true) := by
    simp only [Range.has, Bool.and_eq_true, decide_eq_true_eq]
    omega
  rw [if_neg hhas]
  have hw1 : wsub s.first v = 1 ↔ s.first = v + 1 :=
    wsub_eq_one_iff s.first v (by omega) hv hC
  have hw2 : wsub v r.last = 1 ↔ v = r.last + 1 :=
    wsub_eq_one_iff v r.last hv (by omega) hB
  simp only [insA]
  rw [if_neg (by omega : ¬ v < r.first), if_neg (by omega : ¬ v ≤ r.last),
    if_pos hC]
  by_cases hC1 : s.first = v + 1
  · rw [if_pos (hw1.mpr hC1), if_pos hC1]
    by_cases hC2 : v = r.last + 1
    · rw [if_pos (by constructor; omega; exact hw2.mpr hC2), if_pos hC2]
      simp
    · rw [if_neg (by intro hc; exact hC2 (hw2.mp hc.2)), if_neg hC2]
      simp
  · rw [if_neg (fun hc => hC1 (hw1.mp hc)), if_neg hC1, if_neg (by omega : ¬ (1:Nat) = 0)]
    by_cases hC2 : v = r.last + 1
    · rw [if_pos (hw2.mpr hC2), if_pos hC2]
      simp
    · rw [if_neg (fun hc => hC2 (hw2.mp hc)), if_neg hC2]
      simp [Range.single]

theorem inRanges_insA_caseD (v : Nat) (r s : Range) (t2 : List Range)
    (hok : rangesOkB (r :: s :: t2) = true) (hlt : rangesLtB (r :: s :: t2) = true)
    (hv : v < M32) (hB : r.last < v) (hD : s.first ≤ v)
    (ih : inRanges (s :: t2) v = insA v (s :: t2)) :
    inRanges (r :: s :: t2) v = insA v (r :: s :: t2) := by
  obtain ⟨hrfl, hgap, hokt⟩ := okB_cons_cons r s t2 hok
  have hmonot := searchPred_mono (s :: t2) hokt v
  set kt := goSearch (fun i => decide (v ≤ ((s :: t2).getD i dfltR).last)) 0
    ((s :: t2).length) with hkt
  have hktle : kt ≤ (s :: t2).length := goSearch_le _ _ _ (Nat.zero_le _)
  have hktbelow : ∀ a, a < kt → decide (v ≤ ((s :: t2).getD a dfltR).last) = false :=
    fun a ha => goSearch_below _ 0 _ hmonot a (Nat.zero_le _) ha
  have hktfound : kt < (s :: t2).length →
      decide (v ≤ ((s :: t2).getD kt dfltR).last) = true :=
    fun h => goSearch_found _ 0 _ h
  have hixl : goSearch (fun i => decide (v ≤ ((r :: s :: t2).getD i dfltR).last)) 0
      ((r :: s :: t2).length) = kt + 1 := by
    apply goSearch_eq_of _ 0 _ (kt + 1) (Nat.zero_le _)
      (searchPred_mono (r :: s :: t2) hok v) (Nat.zero_le _)
      (by simp only [List.length_cons] at hktle ⊢; omega)
    · intro a _ ha
      cases a with
      | zero =>
        simp only [List.getD_cons_zero, decide_eq_false_iff_not, not_le]
        exact hB
      | succ b =>
        simp only [List.getD_cons_succ]
        exact hktbelow b (by omega)
    · intro h
      simp only [List.length_cons] at h
      simp only [List.getD_cons_succ]
      exact hktfound (by simp only [List.length_cons]; omega)
  clear_value kt
  simp only [inRanges, hixl]
  simp only [insA]
  rw [if_neg (by omega : ¬ v < r.first), if_neg (by omega : ¬ v ≤ r.last),
    if_neg (by omega : ¬ v < s.first)]
  simp only [← ih]
  simp only [inRanges]
  rw [← hkt]
  rw [if_neg (by simp : ¬ ((r :: s :: t2).length = 0)),
    if_neg (by simp : ¬ ((s :: t2).length = 0))]
  simp only [List.length_cons]
  by_cases hD0 : t2.length + 1 ≤ kt
  · rw [if_pos (by omega : t2.length + 1 + 1 ≤ kt + 1), if_pos hD0]
    simp only [Nat.add_sub_cancel, List.getD_cons_succ]
    by_cases hwm : wsub v (((s :: t2).getD t2.length dfltR)).last = 1
    · rw [if_pos hwm, if_pos hwm]
      simp only [List.set_cons_succ]
    · rw [if_neg hwm, if_neg hwm]
      simp only [List.cons_append]
  · rw [if_neg (by omega : ¬ (t2.length + 1 + 1 ≤ kt + 1)), if_neg hD0]
    simp only [List.getD_cons_succ]
    by_cases hhas : ((s :: t2).getD kt dfltR).has v = true
    · rw [if_pos hhas, if_pos hhas]
    · have hkt1 : 1 ≤ kt := by
        by_contra hc
        have hkt0 : kt = 0 := by omega
        have := hktfound (by simp only [List.length_cons]; omega)
        rw [hkt0] at this hhas
        simp only [List.getD_cons_zero, decide_eq_true_eq] at this
        simp only [List.getD_cons_zero, Range.has, Bool.and_eq_true,
          decide_eq_true_eq] at hhas
        exact hhas ⟨hD, this⟩
      obtain ⟨km, hkm⟩ : ∃ km, kt = km + 1 := ⟨kt - 1, by omega⟩
      subst hkm
      rw [if_neg hhas, if_neg hhas]
      simp only [Nat.add_sub_cancel, List.getD_cons_succ]
      by_cases hw1 : wsub ((t2.getD km dfltR)).first v = 1
      · rw [if_pos hw1, if_pos hw1]
        simp only [show (0 < km + 1 + 1) = True from eq_true (by omega),
          show (0 < km + 1) = True from eq_true (by omega), true_and]
        by_cases hwm : wsub v (((s :: t2).getD km dfltR)).last = 1
        · rw [if_pos hwm, if_pos hwm]
          simp only [List.take_succ_cons, List.drop_succ_cons, List.cons_append]
        · rw [if_neg hwm, if_neg hwm]
          simp only [List.set_cons_succ]
      · rw [if_neg hw1, if_neg hw1,
          if_neg (by omega : ¬ km + 1 + 1 = 0), if_neg (by omega : ¬ km + 1 = 0)]
        by_cases hwm : wsub v (((s :: t2).getD km dfltR)).last = 1
        · rw [if_pos hwm, if_pos hwm]
          simp only [List.set_cons_succ]
        · rw [if_neg hwm, if_neg hwm]
          simp only [List.take_succ_cons, List.drop_succ_cons, List.cons_append]

/-- On every invariant-satisfying, bounded range list, the Go insertion
`inRanges` computes exactly the structural reference insertion `insA`. -/
theorem inRanges_eq_insA (v : Nat) (hv : v < M32) :
    ∀ l : List Range, rangesOkB l = true → rangesLtB l = true →
      inRanges l v = insA v l := by
  intro l
  induction l with
  | nil => intro _ _; rfl
  | cons r t ih =>
    intro hok hlt
    by_cases hA : v ≤ r.last
    · exact inRanges_insA_caseA v r t hok hlt hv hA
    · cases t with
      | nil => exact inRanges_insA_caseB v r hok hlt hv (by omega)
      | cons s t2 =>
        by_cases hC : v < s.first
        · exact inRanges_insA_caseC v r s t2 hok hlt hv (by omega) hC
        · exact inRanges_insA_caseD v r s t2 hok hlt hv (by omega) (by omega)
            (ih (okB_cons r _ hok).2 ((rangesLtB_cons r _).mp hlt).2)

theorem okB_single_of (r : Range) (h : r.first ≤ r.last) :
    rangesOkB [r] = true := by
  simp [rangesOkB, h]

theorem okB_cons_cons_of (a b : Range) (t : List Range)
    (h1 : a.first ≤ a.last) (h2 : a.last + 1 < b.first)
    (h3 : rangesOkB (b :: t) = true) :
    rangesOkB (a :: b :: t) = true := by
  unfold rangesOkB
  simp only [Bool.and_eq_true, decide_eq_true_eq]
  exact ⟨⟨h1, h2⟩, h3⟩

theorem insA_head (v : Nat) (r : Range) (t : List Range) :
    (insA v (r :: t)).1 ≠ [] ∧
      ((insA v (r :: t)).1.headD dfltR).first = min v r.first := by
  cases t with
  | nil =>
    simp only [insA]
    split_ifs <;>
      exact ⟨by simp, by simp only [List.headD_cons, Range.single, Range.first_mk]; omega⟩
  | cons s t2 =>
    simp only [insA]
    split_ifs <;>
      exact ⟨by simp, by simp only [List.headD_cons, Range.single, Range.first_mk]; omega⟩

/-- `insA` preserves the range-list invariant. -/
theorem insA_ok (v : Nat) : ∀ l, rangesOkB l = true →
    rangesOkB (insA v l).1 = true := by
  intro l
  induction l with
  | nil =>
    intro _
    exact okB_single_of _ (le_refl v)
  | cons r t ih =>
    intro hok
    cases t with
    | nil =>
      have hrfl := (okB_cons r [] hok).1
      simp only [insA]
      split_ifs with h1 h2 h3 h4
      · exact okB_single_of _ (by show v ≤ r.last; omega)
      · exact okB_cons_cons_of _ _ _ (le_refl v) (by show v + 1 < r.first; omega) hok
      · exact hok
      · exact okB_single_of _ (by show r.first ≤ v; omega)
      · exact okB_cons_cons_of _ _ _ hrfl (by show r.last + 1 < v; omega)
          (okB_single_of _ (le_refl v))
    | cons s t2 =>
      obtain ⟨hrfl, hgap, hokt⟩ := okB_cons_cons r s t2 hok
      have hsfl := (okB_cons s t2 hokt).1
      have hokt2 := (okB_cons s t2 hokt).2
      simp only [insA]
      split_ifs with h1 h2 h3 h4 h5 h6 h7
      · exact okB_cons_cons_of _ _ _ (by show v ≤ r.last; omega)
          (by show r.last + 1 < s.first; omega) hokt
      · exact okB_cons_cons_of _ _ _ (le_refl v) (by show v + 1 < r.first; omega) hok
      · exact hok
      · -- merge r and s into one range
        apply okB_of_parts _ _ (by show r.first ≤ s.last; omega) hokt2
        intro u t3 ht3
        subst ht3
        have := okB_cons_cons s u t3 hokt
        show s.last + 1 < u.first
        omega
      · -- extend s downwards, r kept
        apply okB_cons_cons_of _ _ _ hrfl (by show r.last + 1 < v; omega)
        apply okB_of_parts _ _ (by show v ≤ s.last; omega) hokt2
        intro u t3 ht3
        subst ht3
        have := okB_cons_cons s u t3 hokt
        show s.last + 1 < u.first
        omega
      · -- extend r upwards
        exact okB_cons_cons_of _ _ _ (by show r.first ≤ v; omega)
          (by show v + 1 < s.first; omega) hokt
      · -- insert a singleton between r and s
        exact okB_cons_cons_of _ _ _ hrfl (by show r.last + 1 < v; omega)
          (okB_cons_cons_of _ _ _ (le_refl v) (by show v + 1 < s.first; omega) hokt)
      · -- recurse into the tail
        apply okB_of_parts _ _ hrfl (ih hokt)
        intro u t3 ht3
        have hh := insA_head v s t2
        rw [ht3] at hh
        simp only [List.headD_cons] at hh
        have hmin : u.first = min v s.first := hh.2
        omega

@[simp] theorem memb_nil_iff (x : Nat) : Memb [] x ↔ False := by
  constructor
  · exact fun h => memb_nil x h
  · exact fun h => h.elim

/-- `insA` adds exactly the inserted value to the set of covered values. -/
theorem insA_mem (v : Nat) : ∀ l, rangesOkB l = true → ∀ x,
    (Memb (insA v l).1 x ↔ Memb l x ∨ x = v) := by
  intro l
  induction l with
  | nil =>
    intro _ x
    simp only [insA, memb_cons, memb_nil_iff, Range.single, Range.first_mk,
      Range.last_mk, or_false, false_or]
    omega
  | cons r t ih =>
    intro hok x
    cases t with
    | nil =>
      have hrfl := (okB_cons r [] hok).1
      simp only [insA]
      split_ifs <;>
        simp only [memb_cons, memb_nil_iff, Range.single, Range.first_mk,
          Range.last_mk, or_false, false_or] <;> omega
    | cons s t2 =>
      obtain ⟨hrfl, hgap, hokt⟩ := okB_cons_cons r s t2 hok
      have hsfl := (okB_cons s t2 hokt).1
      simp only [insA]
      split_ifs <;>
        (simp only [memb_cons];
         (try rw [ih hokt x]);
         by_cases hm : Memb t2 x <;>
           simp only [memb_cons, Range.single, Range.first_mk, Range.last_mk, hm,
             or_false, false_or, or_true, true_or] <;>
           omega)

/-- The boolean returned by `insA` is exactly "already present". -/
theorem insA_found (v : Nat) : ∀ l, rangesOkB l = true →
    ((insA v l).2 = true ↔ Memb l v) := by
  intro l
  induction l with
  | nil =>
    intro _
    simp [insA]
  | cons r t ih =>
    intro hok
    cases t with
    | nil =>
      have hrfl := (okB_cons r [] hok).1
      simp only [insA]
      split_ifs with h1 h2 h3 h4
      · exact ⟨fun h => h.elim,
          fun hm => absurd hm (memb_lt_first r _ hok v (by omega))⟩
      · exact ⟨fun h => h.elim,
          fun hm => absurd hm (memb_lt_first r _ hok v (by omega))⟩
      · exact ⟨fun _ => ⟨r, List.mem_cons_self r _, by omega, h3⟩, fun _ => by trivial⟩
      · exact ⟨fun h => h.elim,
          fun hm => absurd hm
            (by simp only [memb_cons, memb_nil_iff, or_false, not_and, not_le]; omega)⟩
      · exact ⟨fun h => h.elim,
          fun hm => absurd hm
            (by simp only [memb_cons, memb_nil_iff, or_false, not_and, not_le]; omega)⟩
    | cons s t2 =>
      obtain ⟨hrfl, hgap, hokt⟩ := okB_cons_cons r s t2 hok
      have hsfl := (okB_cons s t2 hokt).1
      have hnm : ∀ x, x < s.first → ¬ Memb t2 x := by
        intro x hx hm
        have := memb_tail_gt s t2 hokt x hm
        omega
      simp only [insA]
      split_ifs with h1 h2 h3 h4 h5 h6 h7
      · exact ⟨fun h => h.elim,
          fun hm => absurd hm (memb_lt_first r _ hok v (by omega))⟩
      · exact ⟨fun h => h.elim,
          fun hm => absurd hm (memb_lt_first r _ hok v (by omega))⟩
      · exact ⟨fun _ => ⟨r, List.mem_cons_self r _, by omega, h3⟩, fun _ => by trivial⟩
      · exact ⟨fun h => h.elim, fun hm => absurd hm
          (by simp only [memb_cons, not_or]; exact ⟨by omega, by omega, hnm v (by omega)⟩)⟩
      · exact ⟨fun h => h.elim, fun hm => absurd hm
          (by simp only [memb_cons, not_or]; exact ⟨by omega, by omega, hnm v (by omega)⟩)⟩
      · exact ⟨fun h => h.elim, fun hm => absurd hm
          (by simp only [memb_cons, not_or]; exact ⟨by omega, by omega, hnm v (by omega)⟩)⟩
      · exact ⟨fun h => h.elim, fun hm => absurd hm
          (by simp only [memb_cons, not_or]; exact ⟨by omega, by omega, hnm v (by omega)⟩)⟩
      · show (insA v (s :: t2)).2 = true ↔ _
        rw [ih hokt]
        by_cases hm : Memb t2 v <;>
          simp only [memb_cons, hm, or_false, false_or, or_true, true_or] <;> omega

/-- `insA` keeps all range bounds below `2^32` when the inserted value is. -/
theorem insA_lt (v : Nat) (hv : v < M32) : ∀ l, rangesLtB l = true →
    rangesLtB (insA v l).1 = true := by
  intro l
  induction l with
  | nil =>
    intro _
    simp [insA, rangesLtB, Range.single, hv]
  | cons r t ih =>
    intro hb
    cases t with
    | nil =>
      simp only [insA]
      split_ifs <;> simp_all [rangesLtB, Range.single] <;> omega
    | cons s t2 =>
      simp only [insA]
      split_ifs <;> simp_all [rangesLtB, Range.single] <;> omega

theorem memb_ge_first (r : Range) (t : List Range)
    (hok : rangesOkB (r :: t) = true) (x : Nat) (hm : Memb (r :: t) x) :
    r.first ≤ x := by
  obtain ⟨u, hu, h1, h2⟩ := hm
  rcases List.mem_cons.mp hu with hu | hu
  · subst hu; exact h1
  · have := okB_first_gt r t hok u hu
    have := (okB_cons r t hok).1
    omega

theorem memb_head_first (r : Range) (t : List Range)
    (hok : rangesOkB (r :: t) = true) : Memb (r :: t) r.first :=
  ⟨r, List.mem_cons_self r t, le_refl _, (okB_cons r t hok).1⟩

/-- Auxiliary for canonicity: equal membership and equal head lower bounds
force the head upper bounds into line. -/
theorem rangesOk_last_le (r1 r2 : Range) (t1 t2 : List Range)
    (hok1 : rangesOkB (r1 :: t1) = true) (hok2 : rangesOkB (r2 :: t2) = true)
    (hiff : ∀ x, Memb (r1 :: t1) x ↔ Memb (r2 :: t2) x)
    (hf : r1.first = r2.first) : r1.last ≤ r2.last := by
  by_contra hc
  have hrfl2 := (okB_cons r2 t2 hok2).1
  have hrfl1 := (okB_cons r1 t1 hok1).1
  have hm1 : Memb (r1 :: t1) (r2.last + 1) :=
    ⟨r1, List.mem_cons_self r1 t1, by omega, by omega⟩
  have hm2 : Memb (r2 :: t2) (r2.last + 1) := (hiff _).mp hm1
  obtain ⟨u, hu, h1, h2⟩ := hm2
  rcases List.mem_cons.mp hu with hu | hu
  · subst hu; omega
  · have := okB_first_gt r2 t2 hok2 u hu
    omega

/-- Canonicity: two invariant-satisfying range lists covering the same set of
values are identical. -/
theorem rangesOk_ext : ∀ (l1 l2 : List Range), rangesOkB l1 = true →
    rangesOkB l2 = true → (∀ x, Memb l1 x ↔ Memb l2 x) → l1 = l2 := by
  intro l1
  induction l1 with
  | nil =>
    intro l2 _ hok2 hiff
    cases l2 with
    | nil => rfl
    | cons r2 t2 =>
      exact absurd ((hiff _).mpr (memb_head_first r2 t2 hok2)) (memb_nil _)
  | cons r1 t1 ih =>
    intro l2 hok1 hok2 hiff
    cases l2 with
    | nil =>
      exact absurd ((hiff _).mp (memb_head_first r1 t1 hok1)) (memb_nil _)
    | cons r2 t2 =>
      have hf : r1.first = r2.first := by
        have h12 := memb_ge_first r2 t2 hok2 r1.first
          ((hiff _).mp (memb_head_first r1 t1 hok1))
        have h21 := memb_ge_first r1 t1 hok1 r2.first
          ((hiff _).mpr (memb_head_first r2 t2 hok2))
        omega
      have hl : r1.last = r2.last := by
        have h12 := rangesOk_last_le r1 r2 t1 t2 hok1 hok2 hiff hf
        have h21 := rangesOk_last_le r2 r1 t2 t1 hok2 hok1
          (fun x => (hiff x).symm) hf.symm
        omega
      have hr : r1 = r2 := by
        cases r1
        cases r2
        simp only [Range.first_mk, Range.last_mk] at hf hl
        rw [hf, hl]
      have htiff : ∀ x, Memb t1 x ↔ Memb t2 x := by
        intro x
        by_cases hx : x ≤ r1.last
        · constructor
          · intro hm
            have := memb_tail_gt r1 t1 hok1 x hm
            omega
          · intro hm
            have := memb_tail_gt r2 t2 hok2 x hm
            omega
        · have e1 : Memb t1 x ↔ Memb (r1 :: t1) x := by
            rw [memb_cons]
            constructor
            · exact fun h => Or.inr h
            · rintro (⟨ha, hb⟩ | h)
              · omega
              · exact h
          have e2 : Memb t2 x ↔ Memb (r2 :: t2) x := by
            rw [memb_cons]
            constructor
            · exact fun h => Or.inr h
            · rintro (⟨ha, hb⟩ | h)
              · omega
              · exact h
          rw [e1, e2]
          exact hiff x
      rw [hr, ih t2 (okB_cons r1 t1 hok1).2 (okB_cons r2 t2 hok2).2 htiff]

/-- Folding `inRanges` insertions over a list of sequence values, starting
from a given range list (the way `Coze.Seen` and the gap detector build the
per-partition seen set, value by value). -/
def insertAll (vs : List Nat) : List Range :=
  vs.foldl (fun l v => (inRanges l v).1) []

theorem foldl_ins_facts : ∀ (vs : List Nat) (l : List Range),
    rangesOkB l = true → rangesLtB l = true → (∀ v ∈ vs, v < M32) →
    rangesOkB (vs.foldl (fun l v => (inRanges l v).1) l) = true ∧
    rangesLtB (vs.foldl (fun l v => (inRanges l v).1) l) = true ∧
    (∀ x, Memb (vs.foldl (fun l v => (inRanges l v).1) l) x ↔ (Memb l x ∨ x ∈ vs)) := by
  intro vs
  induction vs with
  | nil =>
    intro l hok hlt _
    refine ⟨hok, hlt, fun x => ?_⟩
    simp
  | cons v vs ih =>
    intro l hok hlt hb
    have hv : v < M32 := hb v (List.mem_cons_self v vs)
    have heq : inRanges l v = insA v l := inRanges_eq_insA v hv l hok hlt
    simp only [List.foldl_cons, heq]
    obtain ⟨ho, hl, hm⟩ := ih (insA v l).1 (insA_ok v l hok) (insA_lt v hv l hlt)
      (fun u hu => hb u (List.mem_cons_of_mem v hu))
    refine ⟨ho, hl, fun x => ?_⟩
    rw [hm x, insA_mem v l hok x]
    simp only [List.mem_cons]
    tauto

theorem insertAll_ok (vs : List Nat) (hvs : ∀ v ∈ vs, v < M32) :
    rangesOkB (insertAll vs) = true ∧ rangesLtB (insertAll vs) = true ∧
    (∀ x, Memb (insertAll vs) x ↔ x ∈ vs) := by
  obtain ⟨h1, h2, h3⟩ := foldl_ins_facts vs [] rfl rfl hvs
  unfold insertAll
  refine ⟨h1, h2, fun x => ?_⟩
  rw [h3 x]
  simp

/-!
## Records, gaps and aggregates (`types.go`, `check.go`)

`time.Time` is modelled as a `Nat` instant (`0` = the zero value,
`time.Time.IsZero`); `time.Duration` as `Int` (`Ends.Sub(Starts)`).
-/

/-- Go `filepath.Ext`: the suffix beginning at the final dot in the final
slash-separated element of the path, empty if there is no dot. -/
def filepathExt (p : String) : String :=
  let seg := p.toList.reverse.takeWhile (fun c => c ≠ '/')
  if seg.contains '.' then ((seg.takeWhile (fun c => c ≠ '.')) ++ ['.']).reverse.asString
  else ""

/-- Go `filepath.Base`: the last element of the path after dropping trailing
slashes; `"."` for the empty path, `"/"` for all-slash paths. -/
def filepathBase (p : String) : String :=
  if p.toList.isEmpty then "."
  else
    let cs := p.toList.reverse.dropWhile (fun c => c = '/')
    if cs.isEmpty then "/"
    else (cs.takeWhile (fun c => c ≠ '/')).reverse.asString

/-- The decoded record (`File`, `types.go` lines 181-189; the `RecTime` field
is set only by the `types.go` decoder and read nowhere, it is omitted). -/
structure File where
  path : String
  source : String
  info : String
  size : Nat
  sequence : Nat
  acqTime : Nat
deriving DecidableEq, Repr

/-- `File.String` (`types.go` line 217): the partition key `source/upi`. -/
def File.str (f : File) : String := f.source ++ "/" ++ f.info

/-- `File.Valid` (`types.go` line 213): extension is not `.bad`. -/
def File.valid (f : File) : Bool := filepathExt f.path ≠ ".bad"

/-- `byUPI` (`types.go` line 173). -/
def byUPI (f : File) : String := f.str

/-- `bySource` (`types.go` line 177). -/
def bySource (f : File) : String := f.source

/-- A sequence gap (`types.go` lines 32-38). -/
structure Gap where
  upi : String
  before : Nat
  after : Nat
  starts : Nat
  ends : Nat
deriving DecidableEq, Repr

/-- Default element for in-bounds Go slice indexing of gap slices. -/
def dfltG : Gap := ⟨"", 0, 0, 0, 0⟩

/-- `Gap.Count` of `types.go` lines 40-42: `(g.After - g.Before) - 1` on
`uint32`. -/
def Gap.count (g : Gap) : Nat := wsub (wsub g.after g.before) 1

/-- `Gap.Count` of the `check.go` variant (lines 80-82 of `check.go`):
`g.After - g.Before` on `uint32`. -/
def Gap.countChk (g : Gap) : Nat := wsub g.after g.before

/-- `Gap.Duration` (`types.go` line 44): `Ends.Sub(Starts)`. -/
def Gap.duration (g : Gap) : Int := (g.ends : Int) - (g.starts : Int)

/-- `File.Compare` (`types.go` lines 191-206).  The Go method recurses once,
as `p.Compare(f)`, when the argument is chronologically later than the
receiver; the inner branch below is that single unfolded recursive call (its
own swap test `f.AcqTime.After(p.AcqTime)` is unreachable there since
`p.AcqTime.After(f.AcqTime)` already held, and strictly).  The `p == nil`
guard is dropped: records are always present here. -/
def File.compare (f p : File) : Option Gap :=
  if f.str ≠ p.str ∨ f.sequence = wadd p.sequence 1 then none
  else if f.acqTime < p.acqTime then
    if p.str ≠ f.str ∨ p.sequence = wadd f.sequence 1 then none
    else some ⟨f.str, f.sequence, p.sequence, f.acqTime, p.acqTime⟩
  else some ⟨p.str, p.sequence, f.sequence, p.acqTime, f.acqTime⟩

/-- `File.Compare` of `scan.go` lines 39-54: identical to the `types.go`
comparison but without the partition-key equality guard. -/
def File.compareScan (f p : File) : Option Gap :=
  if f.sequence = wadd p.sequence 1 then none
  else if f.acqTime < p.acqTime then
    if p.sequence = wadd f.sequence 1 then none
    else some ⟨f.str, f.sequence, p.sequence, f.acqTime, p.acqTime⟩
  else some ⟨p.str, p.sequence, f.sequence, p.acqTime, f.acqTime⟩

/-- The per-partition aggregate (`Coze`, `types.go` lines 69-83). -/
structure Coze where
  upi : String
  count : Nat
  size : Nat
  invalid : Nat
  uniq : Nat
  starts : Nat
  ends : Nat
  first : Nat
  last : Nat
  seen : List Range
deriving DecidableEq, Repr

/-- `Coze.Total` (`types.go` lines 131-137): `uint32` sum of `r.Total()` over
the seen ranges, plus one. -/
def Coze.total (c : Coze) : Nat :=
  wadd (c.seen.foldl (fun t r => wadd t r.total) 0) 1

def missingAux : List Range → Nat
  | a :: b :: t => wsub (wsub b.first a.last) 1 + missingAux (b :: t)
  | _ => 0

/-- `Coze.Missing` (`types.go` lines 148-158): sum over consecutive range
pairs of `(next.First - prev.Last) - 1`, each term computed on `uint32` and
accumulated in `uint64` (the accumulator cannot wrap: at most `2^31` terms,
each below `2^32`). -/
def Coze.missing (c : Coze) : Nat :=
  if c.seen.length = 0 then 0 else missingAux c.seen

def missingRangesAux : List Range → List Range
  | a :: b :: t => ⟨a.last, b.first⟩ :: missingRangesAux (b :: t)
  | _ => []

/-- `Coze.MissingRanges` (`types.go` lines 118-129): the boundary-inclusive
holes `[prev.Last, next.First]` between consecutive seen ranges. -/
def Coze.missingRanges (c : Coze) : List Range :=
  if c.seen.length = 0 then [] else missingRangesAux c.seen

/-- `Coze.Range` (`types.go` lines 139-146). -/
def Coze.rangeOf (c : Coze) : Nat × Nat :=
  if c.seen.length = 0 then (0, 0)
  else ((c.seen.headD dfltR).first, (c.seen.getLastD dfltR).last)

/-- `Coze.Update` (`types.go` lines 85-104) together with the inlined
`Coze.Seen` (lines 106-112): `Seen` inserts via `inRanges`, stores the new
list when the value was absent, and `Update` bumps `Uniq` exactly in that
case. -/
def Coze.update (c : Coze) (f : File) : Coze :=
  let c1 : Coze := { c with count := c.count + 1, size := c.size + f.size }
  let c2 : Coze :=
    if c1.starts = 0 ∨ c1.starts = f.acqTime ∨ f.acqTime < c1.starts then
      { c1 with starts := f.acqTime, first := f.sequence } else c1
  let c3 : Coze :=
    if c2.ends = 0 ∨ c2.ends = f.acqTime ∨ c2.ends < f.acqTime then
      { c2 with ends := f.acqTime, last := f.sequence } else c2
  if f.valid then
    let p := inRanges c3.seen f.sequence
    if p.2 then c3 else { c3 with seen := p.1, uniq := c3.uniq + 1 }
  else { c3 with invalid := c3.invalid + 1 }

/-!
## Gap detectors

`checkFiles` of `check.go` (lines 141-155) keeps one previous record per
partition and appends a gap when two consecutive records are more than one
sequence number apart.  `checkFiles` of the range-set backed variant
(`unnamed/part_000` lines 113-167) additionally suppresses duplicates through
`inRanges` and shrinks or splits previously reported gaps when a later record
refills them.  Go maps are modelled as total functions with the Go zero value
as default (`none` / empty slice); channels as a list of records folded in
arrival order.
-/

/-- State of `checkFiles` (`check.go` lines 141-155): the previous record per
partition and the accumulated gap slice. -/
structure CheckSt where
  cs : String → Option File
  rs : List Gap

/-- One loop iteration of `checkFiles` (`check.go` lines 144-153). -/
def checkStep (interval : Int) (by_ : File → String) (st : CheckSt) (f : File) :
    CheckSt :=
  let n := by_ f
  let rs2 :=
    match st.cs n with
    | some p =>
      if p.sequence < f.sequence then
        match File.compareScan f p with
        | some g =>
          if 0 < g.countChk ∧ (interval = 0 ∨ interval ≤ g.duration) then
            st.rs ++ [g]
          else st.rs
        | none => st.rs
      else st.rs
    | none => st.rs
  { cs := fun m => if m = n then some f else st.cs m, rs := rs2 }

/-- `checkFiles` (`check.go` lines 141-155) over a finite record stream. -/
def checkFilesChk (interval : Int) (by_ : File → String) (files : List File) :
    List Gap :=
  (files.foldl (checkStep interval by_) ⟨fun _ => none, []⟩).rs

/-- The refill handling of the range-set backed `checkFiles`
(`unnamed/part_000` lines 129-151): binary-search the partition's gap slice
for the first gap with `After >= f.Sequence`; shrink it from below when
`f.Sequence - Before <= 1` (removing it when its count reaches zero), split
it in two when `f.Sequence` lies strictly inside.  Returns Go's `skip` flag
and the new gap slice. -/
def gapAdjust (f : File) (gs : List Gap) : Bool × List Gap :=
  if gs.length = 0 then (false, gs)
  else
    let ix := goSearch (fun i => decide (f.sequence ≤ (gs.getD i dfltG).after)) 0
      gs.length
    if ix < gs.length then
      let g0 := gs.getD ix dfltG
      if wsub f.sequence g0.before ≤ 1 then
        let g1 : Gap := { g0 with before := f.sequence, starts := f.acqTime }
        let gs1 := gs.set ix g1
        if g1.count = 0 then (true, gs1.take ix ++ gs1.drop (ix + 1))
        else (true, gs1)
      else
        if g0.before < f.sequence then
          (true,
            (gs.set ix { g0 with after := f.sequence, ends := f.acqTime }).take (ix + 1)
              ++ { g0 with before := f.sequence, starts := f.acqTime } :: gs.drop (ix + 1))
        else (false, gs)
    else (false, gs)

/-- State of the range-set backed `checkFiles` (`unnamed/part_000` lines
114-116): per-partition gap slices, previous record and seen set. -/
structure CheckUSt where
  rs : String → List Gap
  cs : String → Option File
  qs : String → List Range

/-- One loop iteration of the range-set backed `checkFiles`
(`unnamed/part_000` lines 117-161). -/
def checkStepU (interval : Int) (keep : Bool) (by_ : File → String)
    (st : CheckUSt) (f : File) : CheckUSt :=
  if ¬ f.valid ∧ ¬ keep then st
  else
    let n := by_ f
    let sres := inRanges (st.qs n) f.sequence
    if sres.2 then
      { st with cs := fun m => if m = n then some f else st.cs m }
    else
      let qs1 := fun m => if m = n then sres.1 else st.qs m
      let adj := gapAdjust f (st.rs n)
      let rs1 := fun m => if m = n then adj.2 else st.rs m
      let rs2 :=
        match st.cs n with
        | some p =>
          if p.sequence < f.sequence ∧ adj.1 = false then
            match File.compare f p with
            | some g =>
              if 0 < g.count ∧ (interval = 0 ∨ interval ≤ g.duration) then
                fun m => if m = n then rs1 n ++ [g] else rs1 m
              else rs1
            | none => rs1
          else rs1
        | none => rs1
      { rs := rs2, qs := qs1, cs := fun m => if m = n then some f else st.cs m }

/-- The empty detector state. -/
def emptyUSt : CheckUSt := ⟨fun _ => [], fun _ => none, fun _ => []⟩

/-- The range-set backed `checkFiles` (`unnamed/part_000` lines 113-167) over
a finite record stream; the final per-partition gap slices are read off the
state directly (the Go source flattens the `rs` map in Go's randomized map
iteration order, so only the per-partition content is specified). -/
def checkFilesU (interval : Int) (keep : Bool) (by_ : File → String)
    (files : List File) : CheckUSt :=
  files.foldl (checkStepU interval keep by_) emptyUSt

/-- Modelled from the spec: the `allGaps` reporting mode of the Gap Detector.
The `-a` flag ("keep all gaps even when a later playback/replay refill
those") is declared in the `check-upi` usage text of `unnamed/part_000`, but
no implementation of it is present under `src/`; per the spec (section 4.5,
"Unless `allGaps` is set, binary-search the partition's open-Gap list ..."),
setting `allGaps` skips the refill shrink/split step entirely and leaves
previously appended gaps untouched, everything else unchanged. -/
def checkStepAllGaps (interval : Int) (keep : Bool) (by_ : File → String)
    (st : CheckUSt) (f : File) : CheckUSt :=
  if ¬ f.valid ∧ ¬ keep then st
  else
    let n := by_ f
    let sres := inRanges (st.qs n) f.sequence
    if sres.2 then
      { st with cs := fun m => if m = n then some f else st.cs m }
    else
      let qs1 := fun m => if m = n then sres.1 else st.qs m
      let rs2 :=
        match st.cs n with
        | some p =>
          if p.sequence < f.sequence then
            match File.compare f p with
            | some g =>
              if 0 < g.count ∧ (interval = 0 ∨ interval ≤ g.duration) then
                fun m => if m = n then st.rs n ++ [g] else st.rs m
              else st.rs
            | none => st.rs
          else st.rs
        | none => st.rs
      { rs := rs2, qs := qs1, cs := fun m => if m = n then some f else st.cs m }

/-- Modelled from the spec: the detector run with `allGaps` set. -/
def checkFilesAllGaps (interval : Int) (keep : Bool) (by_ : File → String)
    (files : List File) : CheckUSt :=
  files.foldl (checkStepAllGaps interval keep by_) emptyUSt

/-!
## Filename decoder and archive scanner (`scan.go`, `utils.go`)

Go iterates the bytes of a name in `Keep`; for ASCII names bytes and
characters coincide, and any non-ASCII character has only non-whitelisted
bytes, so the character-wise model gives the same verdict.  `time.Time`
instants produced by the decoder are modelled by the 14-digit timestamp value
itself, which is strictly monotone in the real instant (the claims compare
instants and durations, never convert them).
-/

/-- `Keep` (`utils.go` lines 18-28): every byte of the name is in
`[A-Za-z0-9._-]`. -/
def Keep (n : String) : Bool :=
  n.toList.all fun b =>
    decide (('A' ≤ b ∧ b ≤ 'Z') ∨ ('a' ≤ b ∧ b ≤ 'z') ∨ ('0' ≤ b ∧ b ≤ '9') ∨
      b = '-' ∨ b = '_' ∨ b = '.')

/-- Go `strings.TrimLeft(s, "0")`. -/
def trimLeftZeros (s : String) : String :=
  (s.toList.dropWhile (fun c => c = '0')).asString

def hexVal (c : Char) : Option Nat :=
  if '0' ≤ c ∧ c ≤ '9' then some (c.toNat - '0'.toNat)
  else if 'a' ≤ c ∧ c ≤ 'f' then some (c.toNat - 'a'.toNat + 10)
  else if 'A' ≤ c ∧ c ≤ 'F' then some (c.toNat - 'A'.toNat + 10)
  else none

def hexFold (ds : List Char) : Option Nat :=
  ds.foldl
    (fun acc c =>
      match acc, hexVal c with
      | some a, some d => some (a * 16 + d)
      | _, _ => none)
    (some 0)

/-- Go `strconv.ParseInt(s, 16, 8)`: optional sign, non-empty hexadecimal
digits, result within `int8` (Go reports a range error otherwise, which the
caller treats like any parse error). -/
def parseIntHex8 (s : String) : Option Int :=
  let cs := s.toList
  let sd : Bool × List Char :=
    match cs with
    | '-' :: rest => (true, rest)
    | '+' :: rest => (false, rest)
    | _ => (false, cs)
  if sd.2.isEmpty then none
  else
    match hexFold sd.2 with
    | none => none
    | some m =>
      let v : Int := if sd.1 then -(m : Int) else (m : Int)
      if -128 ≤ v ∧ v ≤ 127 then some v else none

def decFold (ds : List Char) : Option Nat :=
  ds.foldl
    (fun acc c =>
      match acc with
      | some a => if '0' ≤ c ∧ c ≤ '9' then some (a * 10 + (c.toNat - '0'.toNat)) else none
      | none => none)
    (some 0)

/-- Go `strconv.ParseUint(s, 10, 32)`: non-empty decimal digits (no sign),
result below `2^32`. -/
def parseUint32 (s : String) : Option Nat :=
  let cs := s.toList
  if cs.isEmpty then none
  else
    match decFold cs with
    | none => none
    | some m => if m < M32 then some m else none

def isDigit (c : Char) : Bool := decide ('0' ≤ c ∧ c ≤ '9')

def digitsVal (ds : List Char) : Nat :=
  ds.foldl (fun a c => a * 10 + (c.toNat - '0'.toNat)) 0

def leapYear (y : Nat) : Bool :=
  decide ((y % 4 = 0 ∧ y % 100 ≠ 0) ∨ y % 400 = 0)

def daysIn (mo y : Nat) : Nat :=
  if mo = 2 then (if leapYear y then 29 else 28)
  else if mo = 4 ∨ mo = 6 ∨ mo = 9 ∨ mo = 11 then 30
  else 31

/-- Go `time.Parse("20060102150405", s)`: exactly fourteen digits, calendar
fields in range.  The resulting instant is represented by the decimal value
of the digit string (strictly monotone in the instant). -/
def timeParse14 (s : String) : Option Nat :=
  let cs := s.toList
  if cs.length = 14 ∧ cs.all isDigit then
    let y := digitsVal (cs.take 4)
    let mo := digitsVal ((cs.drop 4).take 2)
    let d := digitsVal ((cs.drop 6).take 2)
    let h := digitsVal ((cs.drop 8).take 2)
    let mi := digitsVal ((cs.drop 10).take 2)
    let se := digitsVal ((cs.drop 12).take 2)
    if 1 ≤ mo ∧ mo ≤ 12 ∧ 1 ≤ d ∧ d ≤ daysIn mo y ∧ h ≤ 23 ∧ mi ≤ 59 ∧ se ≤ 59 then
      some (digitsVal cs)
    else none
  else none

/-- Accepted origin codes (`scan.go` lines 297-300). -/
def OriImages : List Int :=
  [0x33, 0x34, 0x35, 0x36, 0x37, 0x38, 0x42, 0x43, 0x44, 0x45, 0x46, 0x47]

def OriSciences : List Int := [0x39, 0x40, 0x41, 0x51]

/-- `acceptOrigin` (`scan.go` lines 302-308): binary search (`sort.SearchInts`)
in the sorted code list. -/
def acceptOrigin (o : Int) (origins : List Int) : Bool :=
  if origins.length = 0 then false
  else
    let ix := goSearch (fun i => decide (o ≤ origins.getD i 0)) 0 origins.length
    decide (ix < origins.length) && decide (origins.getD ix 0 = o)

/-- Outcome of the filename decoder: a record, a silent rejection (`nil, nil`),
a decode error (`nil, err`), or a Go runtime panic from an out-of-bounds
index or slice expression. -/
inductive PResult where
  | ok (f : File)
  | skip
  | err
  | oob
deriving DecidableEq, Repr

/-- Go `strings.Split(s, "_")`, structurally on the character list (the
separator is the single character `_` everywhere in `scan.go`): splitting
the empty string yields one empty field, as in Go. -/
def splitUndAux : List Char → List Char → List String
  | [], acc => [acc.reverse.asString]
  | c :: t, acc =>
    if c = '_' then acc.reverse.asString :: splitUndAux t []
    else splitUndAux t (c :: acc)

def splitUnd (s : String) : List String := splitUndAux s.toList []

/-- The sequence- and timestamp-parsing tail of `parseFilename`
(`scan.go` lines 276-294): `ps[len(ps)-4]` as a `uint32`, then
`ps[len(ps)-3]+ps[len(ps)-2]` with the fixed fourteen-character layout. -/
def parseTail (p source info : String) (size : Nat) (ps : List String) (n : Nat) :
    PResult :=
  match parseUint32 (ps.getD (n - 4) "") with
  | none => .err
  | some seq =>
    match timeParse14 (ps.getD (n - 3) "" ++ ps.getD (n - 2) "") with
    | none => .err
    | some t =>
      .ok { path := p, source := source, info := info, size := size,
            sequence := seq, acqTime := t }

/-- `parseFilename` (`scan.go` lines 242-295).  Index and slice expressions
are guarded by the bounds Go itself enforces at run time: `ps[len(ps)-5]`
needs at least five fields, and the slice `ps[1:len(ps)-5]` (evaluated only
when no UPI filter is supplied) needs `1 <= len(ps)-5`; a violated bound is
the `oob` outcome (a runtime panic in Go).  Evaluation order follows the
source: character whitelist, then source hex parse, then the origin switch
and filter, then the UPI slice, then sequence, then timestamp. -/
def parseFilename (p upi : String) (size : Nat) : PResult :=
  if ¬ Keep (filepathBase p) then .skip
  else
    let ps := splitUnd (filepathBase p)
    let n := ps.length
    let source := trimLeftZeros (ps.getD 0 "")
    match parseIntHex8 source with
    | none => .err
    | some s =>
      if n < 5 then .oob
      else
        let origins :=
          match ps.getD (n - 5) "" with
          | "1" | "2" => OriImages
          | "3" => OriSciences
          | _ => ([] : List Int)
        if ¬ acceptOrigin s origins then .skip
        else
          if upi.length = 0 then
            if 1 ≤ n - 5 then
              parseTail p source (String.intercalate "_" ((ps.drop 1).take (n - 5 - 1)))
                size ps n
            else .oob
          else parseTail p source upi size ps n

/-- The number of underscore-separated fields of the base name. -/
def numFields (p : String) : Nat := (splitUnd (filepathBase p)).length

/-- A member of a tar archive: its name and declared size (header contents are
not read beyond the filename-encoded metadata). -/
structure TarEntry where
  name : String
  size : Nat
deriving DecidableEq, Repr

/-- The member loop of `scanTar` (`scan.go` lines 215-237): `.xml` members are
skipped, every other member is decoded as a standalone name; a decode error
`break`s out of the loop, silently ending this archive's stream.  The boolean
marks that a member hit the decoder's out-of-bounds panic (which in Go would
crash the whole process; the statements below exclude such members by
hypothesis).  Archive-format errors from `tar.Reader.Next` and the `CopyN`
body skip are not modelled (well-formed, readable archive bytes assumed). -/
def scanTarFiles (upi : String) : List TarEntry → List File × Bool
  | [] => ([], false)
  | e :: rest =>
    if filepathExt e.name = ".xml" then scanTarFiles upi rest
    else
      match parseFilename e.name upi e.size with
      | .ok f =>
        let r := scanTarFiles upi rest
        (f :: r.1, r.2)
      | .skip => scanTarFiles upi rest
      | .err => ([], false)
      | .oob => ([], true)

/-- What a per-root traversal can report. -/
inductive ScanErr where
  | io
  | decode
  | crashed
deriving DecidableEq, Repr

/-- One entry yielded by `filepath.Walk` over a root, in traversal order:
a directory, a plain file, a tar archive, a list file, or a traversal I/O
failure (a non-nil `err` passed to the walk callback, which also stands for a
failed `os.Open` of a tar or list file). -/
inductive WalkItem where
  | dirItem (path : String)
  | plain (path : String) (size : Nat)
  | tarItem (path : String) (members : List TarEntry)
  | lstItem (path : String) (lines : List String)
  | ioErr
deriving DecidableEq, Repr

def subList (needle : List Char) : List Char → Bool
  | [] => needle.isEmpty
  | c :: t => needle.isPrefixOf (c :: t) || subList needle t

/-- Go `strings.Index(hay, needle) >= 0`. -/
def containsSub (hay needle : String) : Bool := subList needle.toList hay.toList

/-- The cheap UPI pre-filter of `findFiles` (`scan.go` line 126): skip an
entry whose base name does not contain the active filter substring. -/
def skipByUpi (upi p : String) : Bool :=
  decide (upi ≠ "") && ! containsSub (filepathBase p) upi

/-- The `.lst` branch of `findFiles` (`scan.go` lines 141-163): empty and
`.xml` lines are skipped, per-line decode errors are skipped (not fatal), a
decoded record is pushed. -/
def lstScan (upi : String) : List String → List File × Option ScanErr
  | [] => ([], none)
  | line :: rest =>
    if line.length = 0 ∨ filepathExt line = ".xml" then lstScan upi rest
    else
      match parseFilename line upi 0 with
      | .ok f =>
        let r := lstScan upi rest
        (f :: r.1, r.2)
      | .skip => lstScan upi rest
      | .err => lstScan upi rest
      | .oob => ([], some .crashed)

/-- `findFiles` (`scan.go` lines 118-175) over the walk entries of one root:
records produced before a failure are already on the stream; an I/O failure
or a plain-file decode error aborts this root's remaining traversal and is
the root's returned error; a tar member's decode failure ends only that
archive (`scanTar` exposes no error for it), the walk continues and no error
is recorded. -/
def findFilesRoot (upi : String) : List WalkItem → List File × Option ScanErr
  | [] => ([], none)
  | .ioErr :: _ => ([], some .io)
  | .dirItem _ :: rest => findFilesRoot upi rest
  | .tarItem p members :: rest =>
    if skipByUpi upi p then findFilesRoot upi rest
    else
      let fs := scanTarFiles upi members
      if fs.2 then (fs.1, some .crashed)
      else
        let r := findFilesRoot upi rest
        (fs.1 ++ r.1, r.2)
  | .lstItem p lines :: rest =>
    if skipByUpi upi p then findFilesRoot upi rest
    else
      let s := lstScan upi lines
      match s.2 with
      | some e => (s.1, some e)
      | none =>
        let r := findFilesRoot upi rest
        (s.1 ++ r.1, r.2)
  | .plain p size :: rest =>
    if skipByUpi upi p then findFilesRoot upi rest
    else
      let e := filepathExt p
      if e = ".xml" ∨ e = ".zip" then findFilesRoot upi rest
      else
        match parseFilename p upi size with
        | .ok f =>
          let r := findFilesRoot upi rest
          (f :: r.1, r.2)
        | .skip => findFilesRoot upi rest
        | .err => ([], some .decode)
        | .oob => ([], some .crashed)

/-- `walkFiles` (`scan.go` lines 96-116): one worker per root feeding a merged
channel, closed after `group.Wait()`; the error collected by the errgroup is
discarded (`group.Wait()`'s value is unused), so the caller receives records
only.  Concurrent fan-in is modelled as concatenation in root order — one
admissible interleaving; none of the statements proved about this model
depend on the interleaving chosen. -/
def walkFilesModel (upi : String) : List (List WalkItem) → List File
  | [] => []
  | root :: rest => (findFilesRoot upi root).1 ++ walkFilesModel upi rest

@[simp] theorem Gap.upi_mk (u : String) (b a s e : Nat) :
    (Gap.mk u b a s e).upi = u := rfl

@[simp] theorem Gap.before_mk (u : String) (b a s e : Nat) :
    (Gap.mk u b a s e).before = b := rfl

@[simp] theorem Gap.after_mk (u : String) (b a s e : Nat) :
    (Gap.mk u b a s e).after = a := rfl

@[simp] theorem Gap.starts_mk (u : String) (b a s e : Nat) :
    (Gap.mk u b a s e).starts = s := rfl

@[simp] theorem Gap.ends_mk (u : String) (b a s e : Nat) :
    (Gap.mk u b a s e).ends = e := rfl

/-- The boolean invariant, phrased structurally: interval ranges, strictly
ascending with no two ranges overlapping, touching or adjacent. -/
theorem okB_iff_chain (l : List Range) :
    rangesOkB l = true ↔
      ((∀ r ∈ l, r.first ≤ r.last) ∧
        l.Chain' (fun a b => a.last + 1 < b.first)) := by
  induction l with
  | nil => simp [rangesOkB]
  | cons r t ih =>
    cases t with
    | nil => simp [rangesOkB]
    | cons s t2 =>
      constructor
      · intro h
        obtain ⟨h1, h2, h3⟩ := okB_cons_cons r s t2 h
        obtain ⟨ha, hb⟩ := ih.mp h3
        refine ⟨?_, ?_⟩
        · intro u hu
          rcases List.mem_cons.mp hu with rfl | hu
          · exact h1
          · exact ha u hu
        · exact List.chain'_cons.mpr ⟨h2, hb⟩
      · rintro ⟨ha, hb⟩
        apply okB_cons_cons_of
        · exact ha r (List.mem_cons_self r _)
        · exact (List.chain'_cons.mp hb).1
        · exact ih.mpr ⟨fun u hu => ha u (List.mem_cons_of_mem r hu),
            (List.chain'_cons.mp hb).2⟩

/-- Inserting an already-present value returns the list unchanged together
with the "already present" flag. -/
theorem inRanges_mem_self (l : List Range) (v : Nat) (hok : rangesOkB l = true)
    (hlt : rangesLtB l = true) (hv : v < M32) (hm : Memb l v) :
    inRanges l v = (l, true) := by
  rw [inRanges_eq_insA v hv l hok hlt]
  have h2 : (insA v l).2 = true := (insA_found v l hok).mpr hm
  have h1 : (insA v l).1 = l := by
    apply rangesOk_ext _ _ (insA_ok v l hok) hok
    intro x
    rw [insA_mem v l hok x]
    constructor
    · rintro (h | rfl)
      · exact h
      · exact hm
    · exact fun h => Or.inl h
  rw [Prod.ext_iff]
  exact ⟨h1, h2⟩

/-- How `Coze.Update` touches `Uniq` and the seen set on a valid record. -/
theorem update_uniq_seen (c : Coze) (f : File) (hval : f.valid = true) :
    (c.update f).uniq =
      (if (inRanges c.seen f.sequence).2 then c.uniq else c.uniq + 1) ∧
    (c.update f).seen =
      (if (inRanges c.seen f.sequence).2 then c.seen
       else (inRanges c.seen f.sequence).1) := by
  simp only [Coze.update, hval]
  split_ifs <;> simp_all

/-- Plain-arithmetic within-range span sum (spec-side abbreviation). -/
def sumTot (l : List Range) : Nat := (l.map (fun r => r.last - r.first)).sum

/-- Plain-arithmetic missing count (spec-side abbreviation). -/
def missingNat : List Range → Nat
  | a :: b :: t => (b.first - a.last - 1) + missingNat (b :: t)
  | _ => 0

theorem missingAux_eq (l : List Range) (hok : rangesOkB l = true)
    (hlt : rangesLtB l = true) : missingAux l = missingNat l := by
  induction l with
  | nil => rfl
  | cons r t ih =>
    cases t with
    | nil => rfl
    | cons s t2 =>
      obtain ⟨h1, h2, h3⟩ := okB_cons_cons r s t2 hok
      have hsfl := (okB_cons s t2 h3).1
      have hlt2 := ((rangesLtB_cons r (s :: t2)).mp hlt).2
      have hslt := ((rangesLtB_cons s t2).mp hlt2).1
      have hin : wsub s.first r.last = s.first - r.last :=
        wsub_eq_sub s.first r.last (by omega) (by omega)
      have hout : wsub (s.first - r.last) 1 = s.first - r.last - 1 :=
        wsub_eq_sub (s.first - r.last) 1 (by omega) (by omega)
      show wsub (wsub s.first r.last) 1 + missingAux (s :: t2) = _
      rw [hin, hout, ih h3 hlt2]
      rfl

theorem head_le_last (l : List Range) (hok : rangesOkB l = true) :
    l ≠ [] → (l.headD dfltR).first ≤ (l.getLastD dfltR).last := by
  induction l with
  | nil => intro h; exact absurd rfl h
  | cons r t ih =>
    intro _
    cases t with
    | nil =>
      have := (okB_cons r [] hok).1
      simpa [List.getLastD] using this
    | cons s t2 =>
      obtain ⟨h1, h2, h3⟩ := okB_cons_cons r s t2 hok
      have hs := ih h3 (by simp)
      simp only [List.headD_cons] at hs ⊢
      have hshift : (r :: s :: t2).getLastD dfltR = (s :: t2).getLastD dfltR := by
        simp [List.getLastD]
      rw [hshift]
      omega

theorem span_identity (l : List Range) (hok : rangesOkB l = true) :
    l ≠ [] →
    sumTot l + missingNat l + (l.length - 1) =
      (l.getLastD dfltR).last - (l.headD dfltR).first := by
  induction l with
  | nil => intro h; exact absurd rfl h
  | cons r t ih =>
    intro _
    cases t with
    | nil =>
      have := (okB_cons r [] hok).1
      simp [sumTot, missingNat, List.getLastD]
    | cons s t2 =>
      obtain ⟨h1, h2, h3⟩ := okB_cons_cons r s t2 hok
      have hih := ih h3 (by simp)
      have hhl := head_le_last (s :: t2) h3 (by simp)
      have hshift : (r :: s :: t2).getLastD dfltR = (s :: t2).getLastD dfltR := by
        simp [List.getLastD]
      have hsum : sumTot (r :: s :: t2) = (r.last - r.first) + sumTot (s :: t2) := by
        simp [sumTot]
      have hmiss : missingNat (r :: s :: t2) =
          (s.first - r.last - 1) + missingNat (s :: t2) := rfl
      simp only [List.headD_cons] at hih hhl ⊢
      rw [hshift, hsum, hmiss]
      simp only [List.length_cons] at hih ⊢
      omega

theorem fold_total (l : List Range) (hok : rangesOkB l = true)
    (hlt : rangesLtB l = true) :
    ∀ a, a < M32 → l.foldl (fun t r => wadd t r.total) a = (a + sumTot l) % M32 := by
  induction l with
  | nil =>
    intro a ha
    show a = (a + sumTot []) % M32
    simp [sumTot]
    exact (Nat.mod_eq_of_lt ha).symm
  | cons r t ih =>
    intro a ha
    have h1 := (okB_cons r t hok).1
    have h2 := (okB_cons r t hok).2
    have h3 := ((rangesLtB_cons r t).mp hlt).1
    have h4 := ((rangesLtB_cons r t).mp hlt).2
    have htot : r.total = r.last - r.first :=
      wsub_eq_sub r.last r.first h3 h1
    show List.foldl (fun t r => wadd t r.total) (wadd a r.total) t = _
    rw [ih h2 h4 (wadd a r.total) (Nat.mod_lt _ M32_pos), htot]
    show (wadd a (r.last - r.first) + sumTot t) % M32 = _
    unfold wadd
    rw [Nat.mod_add_mod]
    have hsum : sumTot (r :: t) = (r.last - r.first) + sumTot t := by
      simp [sumTot]
    rw [hsum]
    congr 1
    omega

/-- `Coze.Total` without wrap-around, for representable spans. -/
theorem total_formula (c : Coze) (hok : rangesOkB c.seen = true)
    (hlt : rangesLtB c.seen = true) (hsp : sumTot c.seen + 1 < M32) :
    c.total = sumTot c.seen + 1 := by
  unfold Coze.total
  rw [fold_total c.seen hok hlt 0 (by decide)]
  unfold wadd
  rw [Nat.zero_add, Nat.mod_add_mod]
  exact Nat.mod_eq_of_lt hsp

/-- The gap that the `scan.go` comparison constructs for a previous record
`p` and a current record `f` (spec-side abbreviation). -/
def mkGapScan (f p : File) : Gap :=
  if f.acqTime < p.acqTime then ⟨f.str, f.sequence, p.sequence, f.acqTime, p.acqTime⟩
  else ⟨p.str, p.sequence, f.sequence, p.acqTime, f.acqTime⟩

theorem wadd_one_eq_swap (p q : Nat) (hp : p < M32) (hq : q < M32) (hlt : p < q) :
    (p = wadd q 1) ↔ (q = M32 - 1 ∧ p = 0) := by
  have hM := M32_pos
  unfold wadd
  rcases Nat.lt_or_ge (q + 1) M32 with h | h
  · rw [Nat.mod_eq_of_lt h]
    constructor
    · intro h2; omega
    · rintro ⟨hq2, _⟩; omega
  · have hqe : q = M32 - 1 := by omega
    subst hqe
    have hm : (M32 - 1 + 1) % M32 = 0 := by
      have h1 : M32 - 1 + 1 = M32 := by omega
      rw [h1, Nat.mod_self]
    rw [hm]
    constructor
    · intro h2; exact ⟨rfl, h2⟩
    · rintro ⟨_, h2⟩; exact h2

/-- Characterisation of the `scan.go` comparison on records in detector
order (`p.Sequence < f.Sequence`): it yields the time-ordered gap unless the
sequences are consecutive, or consecutive modulo `2^32` with the timestamps
inverted. -/
theorem compareScan_eq (f p : File) (hp : p.sequence < M32) (hf : f.sequence < M32)
    (hlt : p.sequence < f.sequence) :
    File.compareScan f p =
      (if f.sequence = p.sequence + 1 ∨
          (f.acqTime < p.acqTime ∧ p.sequence = 0 ∧ f.sequence = M32 - 1)
       then none else some (mkGapScan f p)) := by
  unfold File.compareScan mkGapScan
  have hw1 : (f.sequence = wadd p.sequence 1) ↔ f.sequence = p.sequence + 1 :=
    wadd_one_eq_iff p.sequence f.sequence hp hf hlt
  have hw2 : (p.sequence = wadd f.sequence 1) ↔
      (f.sequence = M32 - 1 ∧ p.sequence = 0) :=
    wadd_one_eq_swap p.sequence f.sequence hp hf hlt
  by_cases h1 : f.sequence = p.sequence + 1
  · rw [if_pos (hw1.mpr h1), if_pos (Or.inl h1)]
  · rw [if_neg (fun hc => h1 (hw1.mp hc))]
    by_cases h2 : f.acqTime < p.acqTime
    · rw [if_pos h2, if_pos h2]
      by_cases h3 : p.sequence = wadd f.sequence 1
      · have := hw2.mp h3
        rw [if_pos h3, if_pos (Or.inr ⟨h2, this.2, this.1⟩)]
      · rw [if_neg h3, if_neg ?hcond]
        case hcond =>
          rintro (hc | ⟨_, hc2, hc3⟩)
          · exact h1 hc
          · exact h3 (hw2.mpr ⟨hc3, hc2⟩)
    · rw [if_neg h2, if_neg h2, if_neg ?hcond2]
      case hcond2 =>
        rintro (hc | ⟨hc1, _, _⟩)
        · exact h1 hc
        · exact h2 hc1

theorem mkGapScan_countChk_pos (f p : File) (hp : p.sequence < M32)
    (hf : f.sequence < M32) (hlt : p.sequence < f.sequence) :
    0 < (mkGapScan f p).countChk := by
  unfold mkGapScan Gap.countChk
  split_ifs with h
  · simp only [Gap.after_mk, Gap.before_mk]
    rw [wsub_eq_wrap p.sequence f.sequence hf hlt]
    omega
  · simp only [Gap.after_mk, Gap.before_mk]
    rw [wsub_eq_sub f.sequence p.sequence hf (by omega)]
    omega

/-- A walk entry that cannot abort the root: not an I/O failure, plain files
decode without a hard error, and no entry (tar member, list line or plain
file) triggers the decoder's out-of-bounds panic.  Tar members may still fail
to decode. -/
def benign (u : String) : WalkItem → Bool
  | .ioErr => false
  | .dirItem _ => true
  | .tarItem _ members =>
    members.all (fun m => decide (parseFilename m.name u m.size ≠ PResult.oob))
  | .lstItem _ lines =>
    lines.all (fun ln => decide (parseFilename ln u 0 ≠ PResult.oob))
  | .plain p size =>
    decide (parseFilename p u size ≠ PResult.err) &&
    decide (parseFilename p u size ≠ PResult.oob)

theorem scanTar_no_oob (u : String) : ∀ members : List TarEntry,
    (∀ m ∈ members, parseFilename m.name u m.size ≠ PResult.oob) →
    (scanTarFiles u members).2 = false := by
  intro members
  induction members with
  | nil => intro _; rfl
  | cons m rest ih =>
    intro h
    unfold scanTarFiles
    split_ifs with hx
    · exact ih (fun a ha => h a (List.mem_cons_of_mem m ha))
    · cases hres : parseFilename m.name u m.size with
      | ok f => simp only [hres]; exact ih (fun a ha => h a (List.mem_cons_of_mem m ha))
      | skip => simp only [hres]; exact ih (fun a ha => h a (List.mem_cons_of_mem m ha))
      | err => simp only [hres]
      | oob => exact absurd hres (h m (List.mem_cons_self m rest))

theorem lst_no_oob (u : String) : ∀ lines : List String,
    (∀ ln ∈ lines, parseFilename ln u 0 ≠ PResult.oob) →
    (lstScan u lines).2 = none := by
  intro lines
  induction lines with
  | nil => intro _; rfl
  | cons ln rest ih =>
    intro h
    unfold lstScan
    split_ifs with hx
    · exact ih (fun a ha => h a (List.mem_cons_of_mem ln ha))
    · cases hres : parseFilename ln u 0 with
      | ok f => simp only [hres]; exact ih (fun a ha => h a (List.mem_cons_of_mem ln ha))
      | skip => simp only [hres]; exact ih (fun a ha => h a (List.mem_cons_of_mem ln ha))
      | err => simp only [hres]; exact ih (fun a ha => h a (List.mem_cons_of_mem ln ha))
      | oob => exact absurd hres (h ln (List.mem_cons_self ln rest))

theorem findFilesRoot_no_err (u : String) : ∀ items : List WalkItem,
    (∀ i ∈ items, benign u i = true) → (findFilesRoot u items).2 = none := by
  intro items
  induction items with
  | nil => intro _; rfl
  | cons item rest ih =>
    intro h
    have hrest := fun a ha => h a (List.mem_cons_of_mem item ha)
    have hitem := h item (List.mem_cons_self item rest)
    cases item with
    | ioErr => simp [benign] at hitem
    | dirItem q => exact ih hrest
    | tarItem q members =>
      have hno : (scanTarFiles u members).2 = false := by
        apply scanTar_no_oob
        simp only [benign, List.all_eq_true, decide_eq_true_eq] at hitem
        exact hitem
      by_cases hs : skipByUpi u q = true
      · simp only [findFilesRoot, if_pos hs]
        exact ih hrest
      · simp only [findFilesRoot, if_neg hs, hno]
        exact ih hrest
    | lstItem q lines =>
      have hno : (lstScan u lines).2 = none := by
        apply lst_no_oob
        simp only [benign, List.all_eq_true, decide_eq_true_eq] at hitem
        exact hitem
      by_cases hs : skipByUpi u q = true
      · simp only [findFilesRoot, if_pos hs]
        exact ih hrest
      · simp only [findFilesRoot, if_neg hs, hno]
        exact ih hrest
    | plain q size =>
      simp only [benign, Bool.and_eq_true, decide_eq_true_eq] at hitem
      by_cases hs : skipByUpi u q = true
      · simp only [findFilesRoot, if_pos hs]
        exact ih hrest
      · by_cases hz : filepathExt q = ".xml" ∨ filepathExt q = ".zip"
        · simp only [findFilesRoot, if_neg hs, if_pos hz]
          exact ih hrest
        · cases hres : parseFilename q u size with
          | ok f =>
            simp only [findFilesRoot, if_neg hs, if_neg hz, hres]
            exact ih hrest
          | skip =>
            simp only [findFilesRoot, if_neg hs, if_neg hz, hres]
            exact ih hrest
          | err => exact absurd hres hitem.1
          | oob => exact absurd hres hitem.2

theorem scanTar_abort (u : String) : ∀ (pre : List TarEntry) (e : TarEntry)
    (post : List TarEntry), filepathExt e.name ≠ ".xml" →
    parseFilename e.name u e.size = PResult.err →
    (∀ m ∈ pre, parseFilename m.name u m.size ≠ PResult.err ∧
      parseFilename m.name u m.size ≠ PResult.oob) →
    scanTarFiles u (pre ++ e :: post) = ((scanTarFiles u pre).1, false) := by
  intro pre
  induction pre with
  | nil =>
    intro e post hx herr _
    show scanTarFiles u (e :: post) = _
    unfold scanTarFiles
    rw [if_neg hx, herr]
  | cons m rest ih =>
    intro e post hx herr h
    have hm := h m (List.mem_cons_self m rest)
    have hr := fun a ha => h a (List.mem_cons_of_mem m ha)
    show scanTarFiles u (m :: (rest ++ e :: post)) = _
    by_cases hxm : filepathExt m.name = ".xml"
    · unfold scanTarFiles
      rw [if_pos hxm, if_pos hxm]
      exact ih e post hx herr hr
    · cases hres : parseFilename m.name u m.size with
      | ok f =>
        unfold scanTarFiles
        rw [if_neg hxm, if_neg hxm, hres, ih e post hx herr hr]
      | skip =>
        unfold scanTarFiles
        rw [if_neg hxm, if_neg hxm, hres]
        exact ih e post hx herr hr
      | err => exact absurd hres hm.1
      | oob => exact absurd hres hm.2

theorem walkFiles_append (u : String) : ∀ roots1 roots2 : List (List WalkItem),
    walkFilesModel u (roots1 ++ roots2) =
      walkFilesModel u roots1 ++ walkFilesModel u roots2 := by
  intro roots1 roots2
  induction roots1 with
  | nil => simp [walkFilesModel]
  | cons r rest ih =>
    simp only [List.cons_append, walkFilesModel, List.append_eq, ih, List.append_assoc]

/-- Concrete scanner inputs: a tar archive with a valid member, a member whose
source field is not hexadecimal (a decode error), and a further valid member;
plus a second root holding one plain decodable file. -/
def tm1 : TarEntry := ⟨"33_XYZ_1_00010_20180101_120000_00", 4⟩

def tmBad : TarEntry := ⟨"zz_bad", 1⟩

def tm3 : TarEntry := ⟨"33_ABC_1_00011_20180101_130000_00", 4⟩

def root1 : List WalkItem := [.tarItem "a.tar" [tm1, tmBad, tm3]]

def rootB : List WalkItem := [.plain "33_DEF_1_00007_20180101_110000_00" 9]

def fTm1 : File :=
  ⟨"33_XYZ_1_00010_20180101_120000_00", "33", "XYZ", 4, 10, 20180101120000⟩

def fDEF : File :=
  ⟨"33_DEF_1_00007_20180101_110000_00", "33", "DEF", 9, 7, 20180101110000⟩

/-!
## Claims
-/

/-- An aggregate state holding only a seen-range list (for stating the
range-set queries, which read no other field). -/
def czOf (l : List Range) : Coze := ⟨"", 0, 0, 0, 0, 0, 0, 0, 0, l⟩

/-- C1: every sequence of `uint32` insertions into an initially empty range
list via `inRanges` yields a list of closed intervals `[first, last]` with
`first ≤ last`, sorted ascending, in which no two intervals overlap, touch or
are adjacent (consecutive intervals always satisfy `prev.last + 1 < next.first`;
bound-difference-one neighbours are merged on insertion). -/
theorem inRanges_invariant (vs : List Nat) (hb : ∀ v ∈ vs, v < M32) :
    (∀ r ∈ insertAll vs, r.first ≤ r.last) ∧
    List.Chain' (fun a b => a.last + 1 < b.first) (insertAll vs) :=
  (okB_iff_chain (insertAll vs)).mp (insertAll_ok vs hb).1

theorem inRanges_invariant_witness :
    (∀ v ∈ [3, 1, 2, 4294967295, 7], v < M32) ∧
    ((∀ r ∈ insertAll [3, 1, 2, 4294967295, 7], r.first ≤ r.last) ∧
      List.Chain' (fun a b => a.last + 1 < b.first)
        (insertAll [3, 1, 2, 4294967295, 7])) :=
  ⟨by decide, inRanges_invariant [3, 1, 2, 4294967295, 7] (by decide)⟩

/-- C2: inserting any two permutations of a finite set of distinct `uint32`
values into an empty range list via `inRanges` yields the same final range
list, and hence the same `Missing()` value. -/
theorem inRanges_order_independent (vs ws : List Nat) (hperm : vs.Perm ws)
    (hnd : vs.Nodup) (hb : ∀ v ∈ vs, v < M32) :
    insertAll vs = insertAll ws ∧
    (czOf (insertAll vs)).missing = (czOf (insertAll ws)).missing := by
  have hbw : ∀ v ∈ ws, v < M32 := fun v hv => hb v (hperm.mem_iff.mpr hv)
  obtain ⟨hok1, _, hm1⟩ := insertAll_ok vs hb
  obtain ⟨hok2, _, hm2⟩ := insertAll_ok ws hbw
  have heq : insertAll vs = insertAll ws := by
    apply rangesOk_ext _ _ hok1 hok2
    intro x
    rw [hm1 x, hm2 x]
    exact hperm.mem_iff
  exact ⟨heq, by rw [heq]⟩

theorem inRanges_order_independent_witness :
    List.Perm [1, 5, 3] [3, 1, 5] ∧ List.Nodup [1, 5, 3] ∧
    (∀ v ∈ [1, 5, 3], v < M32) ∧
    (insertAll [1, 5, 3] = insertAll [3, 1, 5] ∧
      (czOf (insertAll [1, 5, 3])).missing = (czOf (insertAll [3, 1, 5])).missing) :=
  ⟨by decide, by decide, by decide,
    inRanges_order_independent [1, 5, 3] [3, 1, 5] (by decide) (by decide) (by decide)⟩

/-- C7 (counterexample): for `{1, 2, 3, 7, 8, 10}` inserted in order, the
missing-count query returns `4` — the four values `4, 5, 6, 9` — and not `5`
as claimed. -/
theorem missing_count_cex :
    (czOf (insertAll [1, 2, 3, 7, 8, 10])).missing = 4 ∧
    (czOf (insertAll [1, 2, 3, 7, 8, 10])).missing ≠ 5 := by decide

/-- C7 (as amended): for `{1, 2, 3, 7, 8, 10}` inserted in order,
`missing()` returns `4` (the values `4, 5, 6, 9`) and `missingRanges()`
returns exactly the boundary-inclusive ranges `[3, 7]` and `[8, 10]`. -/
theorem missing_count_correct :
    (czOf (insertAll [1, 2, 3, 7, 8, 10])).missing = 4 ∧
    (czOf (insertAll [1, 2, 3, 7, 8, 10])).missingRanges = [⟨3, 7⟩, ⟨8, 10⟩] := by
  decide

/-- C8: insertion into the range set is idempotent — inserting a value that
is already present reports "already present" and leaves the range list (and
hence `total()` and `missing()`) unchanged; and in the aggregator a second
valid record with the same sequence value for the same partition does not
increment `Uniq` a second time. -/
theorem insert_idempotent :
    (∀ (l : List Range) (v : Nat), rangesOkB l = true → rangesLtB l = true →
      v < M32 → Memb l v →
      inRanges l v = (l, true) ∧
      (czOf (inRanges l v).1).total = (czOf l).total ∧
      (czOf (inRanges l v).1).missing = (czOf l).missing) ∧
    (∀ (c : Coze) (f1 f2 : File), rangesOkB c.seen = true →
      rangesLtB c.seen = true → f1.valid = true → f2.valid = true →
      f2.sequence = f1.sequence → f1.sequence < M32 →
      ((c.update f1).update f2).uniq = (c.update f1).uniq) := by
  constructor
  · intro l v hok hlt hv hm
    have h := inRanges_mem_self l v hok hlt hv hm
    exact ⟨h, by rw [h], by rw [h]⟩
  · intro c f1 f2 hok hlt hv1 hv2 hseq hs32
    obtain ⟨hu1, hs1⟩ := update_uniq_seen c f1 hv1
    have heq1 : inRanges c.seen f1.sequence = insA f1.sequence c.seen :=
      inRanges_eq_insA f1.sequence hs32 c.seen hok hlt
    have hokn : rangesOkB (c.update f1).seen = true := by
      rw [hs1]
      split_ifs with h
      · exact hok
      · rw [heq1]; exact insA_ok _ _ hok
    have hltn : rangesLtB (c.update f1).seen = true := by
      rw [hs1]
      split_ifs with h
      · exact hlt
      · rw [heq1]; exact insA_lt _ hs32 _ hlt
    have hmem : Memb (c.update f1).seen f1.sequence := by
      rw [hs1]
      split_ifs with h
      · rw [heq1] at h
        exact (insA_found _ _ hok).mp h
      · rw [heq1]
        exact (insA_mem _ _ hok _).mpr (Or.inr rfl)
    have hpres : inRanges (c.update f1).seen f2.sequence = ((c.update f1).seen, true) := by
      rw [hseq]
      exact inRanges_mem_self _ f1.sequence hokn hltn hs32 hmem
    obtain ⟨hu2, _⟩ := update_uniq_seen (c.update f1) f2 hv2
    rw [hu2, hpres]
    simp

theorem insert_idempotent_witness :
    (rangesOkB [⟨1, 3⟩] = true ∧ rangesLtB [⟨1, 3⟩] = true ∧ (2:Nat) < M32 ∧
      Memb [⟨1, 3⟩] 2 ∧ inRanges [⟨1, 3⟩] 2 = ([⟨1, 3⟩], true)) ∧
    (((czOf []).update ⟨"a", "33", "XYZ", 0, 5, 7⟩).update
        ⟨"b", "33", "XYZ", 0, 5, 9⟩).uniq =
      ((czOf []).update ⟨"a", "33", "XYZ", 0, 5, 7⟩).uniq :=
  ⟨⟨rfl, rfl, by decide, by decide,
    (insert_idempotent.1 [⟨1, 3⟩] 2 rfl rfl (by decide) (by decide)).1⟩,
   insert_idempotent.2 (czOf []) ⟨"a", "33", "XYZ", 0, 5, 7⟩
     ⟨"b", "33", "XYZ", 0, 5, 9⟩ rfl rfl (by decide) (by decide) rfl (by decide)⟩

/-- C6 (counterexample): on the empty range list `Total()` returns `1`, not
`0`; and on the reachable two-range state `{[1,1],[3,3]}` (insert `1` then
`3`) it returns `1`, not the full span `3 - 1 + 1 = 3`. -/
theorem total_span_cex :
    (czOf []).total = 1 ∧ (czOf []).total ≠ 0 ∧
    insertAll [1, 3] = [⟨1, 1⟩, ⟨3, 3⟩] ∧
    (czOf (insertAll [1, 3])).total = 1 ∧
    (czOf (insertAll [1, 3])).total ≠ 3 - 1 + 1 := by decide

/-- C6 (as amended): `Total()` returns `1` plus the `uint32` sum of
`last - first` over the seen ranges — on the empty list that is `1`, not `0`,
and in general it undercounts the full expected span by `missing()` plus the
number of holes: for every invariant-satisfying state with a representable
span, `total() + missing() + (#ranges - 1) = last.last - first.first + 1`,
so `total()` equals the full span only when the list is a single range. -/
theorem total_span_relation :
    (∀ c : Coze, rangesOkB c.seen = true → rangesLtB c.seen = true →
      c.seen ≠ [] →
      (c.seen.getLastD dfltR).last - (c.seen.headD dfltR).first + 1 < M32 →
      c.total + c.missing + (c.seen.length - 1) =
        (c.seen.getLastD dfltR).last - (c.seen.headD dfltR).first + 1) ∧
    (∀ c : Coze, c.seen = [] → c.total = 1) := by
  constructor
  · intro c hok hlt hne hsp
    have hspan := span_identity c.seen hok hne
    have hmiss : c.missing = missingNat c.seen := by
      unfold Coze.missing
      rw [if_neg (by simpa using hne)]
      exact missingAux_eq c.seen hok hlt
    have hsum : sumTot c.seen + 1 < M32 := by omega
    have htot := total_formula c hok hlt hsum
    rw [htot, hmiss]
    omega
  · intro c h
    unfold Coze.total
    rw [h]
    rfl

theorem total_span_relation_witness :
    (rangesOkB (czOf [⟨1, 3⟩, ⟨7, 8⟩]).seen = true ∧
      rangesLtB (czOf [⟨1, 3⟩, ⟨7, 8⟩]).seen = true ∧
      (czOf [⟨1, 3⟩, ⟨7, 8⟩]).seen ≠ [] ∧
      ((czOf [⟨1, 3⟩, ⟨7, 8⟩]).seen.getLastD dfltR).last -
        ((czOf [⟨1, 3⟩, ⟨7, 8⟩]).seen.headD dfltR).first + 1 < M32 ∧
      (czOf [⟨1, 3⟩, ⟨7, 8⟩]).total + (czOf [⟨1, 3⟩, ⟨7, 8⟩]).missing +
          ((czOf [⟨1, 3⟩, ⟨7, 8⟩]).seen.length - 1) =
        ((czOf [⟨1, 3⟩, ⟨7, 8⟩]).seen.getLastD dfltR).last -
          ((czOf [⟨1, 3⟩, ⟨7, 8⟩]).seen.headD dfltR).first + 1) ∧
    (czOf []).seen = [] ∧ (czOf []).total = 1 :=
  ⟨⟨rfl, rfl, by decide, by decide,
    total_span_relation.1 (czOf [⟨1, 3⟩, ⟨7, 8⟩]) rfl rfl (by decide) (by decide)⟩,
   rfl, total_span_relation.2 (czOf []) rfl⟩

def c5p : File := ⟨"p", "33", "XYZ", 0, 1, 20⟩

def c5f : File := ⟨"f", "33", "XYZ", 0, 5, 10⟩

def c5gap : Gap := ⟨"33/XYZ", 5, 1, 10, 20⟩

/-- C5 (counterexample): comparing two same-partition records whose
acquisition timestamps are inverted relative to their sequence order yields a
gap with `Before = 5 > After = 1` — the bounds are not ordered by sequence
number. -/
theorem compare_order_cex :
    File.compare c5f c5p = some c5gap ∧ ¬ (c5gap.before < c5gap.after) := by
  decide

/-- C5 (as amended): every gap produced by `File.Compare` is ordered by
acquisition time, not by sequence number: `Starts ≤ Ends` always, the
chronologically earlier record supplies `Before` and `Starts`, and the later
one supplies `After` and `Ends`; `Before < After` therefore holds exactly
when the earlier record also has the smaller sequence number, and the swap
performed when the timestamps are inverted relative to sequence order makes
`Before > After`. -/
theorem compare_time_ordered (f p : File) (g : Gap)
    (h : File.compare f p = some g) :
    g.starts ≤ g.ends ∧ g.starts = min f.acqTime p.acqTime ∧
    g.ends = max f.acqTime p.acqTime ∧
    g.before = (if f.acqTime < p.acqTime then f.sequence else p.sequence) ∧
    g.after = (if f.acqTime < p.acqTime then p.sequence else f.sequence) ∧
    g.upi = f.str := by
  unfold File.compare at h
  split_ifs at h with h1 h2 h3
  · rw [Option.some.injEq] at h
    subst h
    push_neg at h1
    refine ⟨by simp; omega, by simp; omega, by simp; omega, by simp [h2],
      by simp [h2], by simp⟩
  · rw [Option.some.injEq] at h
    subst h
    push_neg at h1
    refine ⟨by simp; omega, by simp; omega, by simp; omega, by simp [h2],
      by simp [h2], by simp [h1.1.symm]⟩

theorem compare_time_ordered_witness :
    File.compare c5f c5p = some c5gap ∧
    (c5gap.starts ≤ c5gap.ends ∧ c5gap.starts = min c5f.acqTime c5p.acqTime ∧
      c5gap.ends = max c5f.acqTime c5p.acqTime ∧
      c5gap.before =
        (if c5f.acqTime < c5p.acqTime then c5f.sequence else c5p.sequence) ∧
      c5gap.after =
        (if c5f.acqTime < c5p.acqTime then c5p.sequence else c5f.sequence) ∧
      c5gap.upi = c5f.str) :=
  ⟨by decide, compare_time_ordered c5f c5p c5gap (by decide)⟩

/-- C4 (as amended): for consecutive same-partition records `p`, `f` with
`f.Sequence > p.Sequence`, `checkFiles` (`check.go`) appends a gap exactly
when `f.Sequence - p.Sequence > 1`, the configured minimum duration is zero
or the gap's own `Ends - Starts` reaches it, and the pair is not in the
single `uint32` wrap-around corner `p.Sequence = 0`, `f.Sequence = 2^32 - 1`
with inverted timestamps — there the swapped comparison sees the sequences as
consecutive modulo `2^32` and produces no gap. -/
theorem checkStep_append_iff (interval : Int) (by_ : File → String)
    (st : CheckSt) (f p : File) (hcs : st.cs (by_ f) = some p)
    (hlt : p.sequence < f.sequence) (hp : p.sequence < M32)
    (hf : f.sequence < M32) :
    (checkStep interval by_ st f).rs =
      (if 1 < f.sequence - p.sequence ∧
          (interval = 0 ∨ interval ≤ (mkGapScan f p).duration) ∧
          ¬ (f.acqTime < p.acqTime ∧ p.sequence = 0 ∧ f.sequence = M32 - 1)
       then st.rs ++ [mkGapScan f p] else st.rs) := by
  have hpos := mkGapScan_countChk_pos f p hp hf hlt
  by_cases hnil : f.sequence = p.sequence + 1 ∨
      (f.acqTime < p.acqTime ∧ p.sequence = 0 ∧ f.sequence = M32 - 1)
  · have hcmp : File.compareScan f p = none := by
      rw [compareScan_eq f p hp hf hlt, if_pos hnil]
    simp only [checkStep, hcs, if_pos hlt, hcmp]
    rw [if_neg ?hc]
    case hc =>
      rintro ⟨hd, _, hcorner⟩
      rcases hnil with hone | hcor
      · omega
      · exact hcorner hcor
  · have hcmp : File.compareScan f p = some (mkGapScan f p) := by
      rw [compareScan_eq f p hp hf hlt, if_neg hnil]
    simp only [checkStep, hcs, if_pos hlt, hcmp]
    push_neg at hnil
    by_cases hdur : interval = 0 ∨ interval ≤ (mkGapScan f p).duration
    · rw [if_pos ⟨hpos, hdur⟩,
        if_pos ⟨by omega, hdur, fun hc => hnil.2 hc.1 hc.2.1 hc.2.2⟩]
    · rw [if_neg (fun hc => hdur hc.2), if_neg (fun hc => hdur hc.2.1)]

def c4p : File := ⟨"p", "33", "XYZ", 0, 0, 2⟩

def c4f : File := ⟨"f", "33", "XYZ", 0, 4294967295, 1⟩

def c4st : CheckSt := ⟨fun n => if n = "33/XYZ" then some c4p else none, []⟩

/-- C4 (counterexample): with the previous record at sequence `0` and the
current record at sequence `2^32 - 1` with inverted timestamps, the count is
positive (`2^32 - 1 > 1` missing values) and the minimum duration is zero,
yet no gap is appended: the swapped comparison takes `0 = (2^32-1) + 1` on
`uint32` to mean consecutive and returns nil. -/
theorem checkStep_append_cex :
    c4st.cs (byUPI c4f) = some c4p ∧ c4p.sequence < c4f.sequence ∧
    1 < c4f.sequence - c4p.sequence ∧ (0 : Int) = 0 ∧
    (checkStep 0 byUPI c4st c4f).rs = [] := by decide

def c4pw : File := ⟨"p", "33", "XYZ", 0, 1, 10⟩

def c4fw : File := ⟨"f", "33", "XYZ", 0, 5, 20⟩

def c4stw : CheckSt := ⟨fun n => if n = "33/XYZ" then some c4pw else none, []⟩

theorem checkStep_append_iff_witness :
    c4stw.cs (byUPI c4fw) = some c4pw ∧ c4pw.sequence < c4fw.sequence ∧
    ((checkStep 0 byUPI c4stw c4fw).rs =
      (if 1 < c4fw.sequence - c4pw.sequence ∧
          ((0 : Int) = 0 ∨ (0 : Int) ≤ (mkGapScan c4fw c4pw).duration) ∧
          ¬ (c4fw.acqTime < c4pw.acqTime ∧ c4pw.sequence = 0 ∧
              c4fw.sequence = M32 - 1)
       then c4stw.rs ++ [mkGapScan c4fw c4pw] else c4stw.rs)) :=
  ⟨by decide, by decide,
    checkStep_append_iff 0 byUPI c4stw c4fw c4pw (by decide) (by decide)
      (by decide) (by decide)⟩

def fc1 : File := ⟨"f1", "33", "XYZ", 0, 1, 10⟩

def fc2 : File := ⟨"f2", "33", "XYZ", 0, 5, 20⟩

def fc3 : File := ⟨"f3", "33", "XYZ", 0, 3, 30⟩

/-- C3 (counterexample): in the range-set backed detector without `allGaps`,
after sequences `1`, `5`, `3` the partition's gap slice is NOT the single
narrowed gap `before=3, after=5`: the refill at `3` is strictly inside the
gap `[1,5]` with `3 - 1 > 1`, so the split branch replaces the entry with
the two gaps `[1,3]` and `[3,5]` — the filled portion does get its own
entry, contrary to the claim. -/
theorem refill_shrink_cex :
    (((checkFilesU 0 false byUPI [fc1, fc2, fc3]).rs "33/XYZ").map
        (fun g => (g.before, g.after)) = [(1, 3), (3, 5)]) ∧
    (((checkFilesU 0 false byUPI [fc1, fc2, fc3]).rs "33/XYZ").map
        (fun g => (g.before, g.after)) ≠ [(3, 5)]) := by decide

/-- C3 (as amended): without `allGaps`, sequences `1`, `5`, `3` (the `3`
arriving chronologically last) turn the open gap `[1,5]` into the two gaps
`[1,3]` (starts at the acquisition time of `1`, ends at that of `3`) and
`[3,5]` (starts at that of `3`, ends at that of `5`): a refill strictly
inside a gap splits it rather than narrowing it, and the upper piece keeps
the refilling record's timestamp as its start. With `allGaps` set (modelled
from the spec — the `-a` flag is documented but unimplemented in the
source), the original `[1,5]` gap remains untouched. -/
theorem refill_split :
    ((checkFilesU 0 false byUPI [fc1, fc2, fc3]).rs "33/XYZ" =
      [⟨"33/XYZ", 1, 3, 10, 30⟩, ⟨"33/XYZ", 3, 5, 30, 20⟩]) ∧
    ((checkFilesAllGaps 0 false byUPI [fc1, fc2, fc3]).rs "33/XYZ" =
      [⟨"33/XYZ", 1, 5, 10, 20⟩]) := by decide

/-- C9 (counterexample): the tar member `tmBad` fails to decode, yet the
root's traversal reports no error (`scanTar` silently `break`s, dropping the
rest of the archive — the valid member `tm3` after it is lost), and the
merged stream of `walkFiles` carries no error at all: `group.Wait()`'s value
is discarded in `scan.go`, so nothing is ever propagated to the caller. -/
theorem scan_error_discarded_cex :
    parseFilename tmBad.name "" tmBad.size = PResult.err ∧
    findFilesRoot "" root1 = ([fTm1], none) ∧
    walkFilesModel "" [root1, rootB] = [fTm1, fDEF] := by decide

/-- C9 (as amended): a tar member's decode failure aborts only the containing
archive's traversal — members decoded before it stay on the stream, the rest
of the archive is silently dropped, and no error is recorded; the walk over
the rest of that root continues, and every other root still contributes all
of its records to the merged stream, which carries records only (the error
collected by the errgroup is discarded, never surfaced to the caller). -/
theorem tar_decode_isolated (u p : String) (pre : List TarEntry) (e : TarEntry)
    (post : List TarEntry) (rest : List WalkItem)
    (roots : List (List WalkItem))
    (hx : filepathExt e.name ≠ ".xml")
    (herr : parseFilename e.name u e.size = PResult.err)
    (hpre : ∀ m ∈ pre, parseFilename m.name u m.size ≠ PResult.err ∧
      parseFilename m.name u m.size ≠ PResult.oob)
    (hskip : skipByUpi u p = false) :
    scanTarFiles u (pre ++ e :: post) = ((scanTarFiles u pre).1, false) ∧
    findFilesRoot u (WalkItem.tarItem p (pre ++ e :: post) :: rest) =
      ((scanTarFiles u pre).1 ++ (findFilesRoot u rest).1,
        (findFilesRoot u rest).2) ∧
    walkFilesModel u ((WalkItem.tarItem p (pre ++ e :: post) :: rest) :: roots)
      = ((scanTarFiles u pre).1 ++ (findFilesRoot u rest).1)
          ++ walkFilesModel u roots := by
  have habort := scanTar_abort u pre e post hx herr hpre
  have hfind : findFilesRoot u (WalkItem.tarItem p (pre ++ e :: post) :: rest)
      = ((scanTarFiles u pre).1 ++ (findFilesRoot u rest).1,
          (findFilesRoot u rest).2) := by
    simp only [findFilesRoot, hskip, Bool.false_eq_true, if_false, habort]
  refine ⟨habort, hfind, ?_⟩
  simp only [walkFilesModel, hfind]

theorem tar_decode_isolated_witness :
    scanTarFiles "" ([tm1] ++ tmBad :: [tm3]) =
      ((scanTarFiles "" [tm1]).1, false) ∧
    findFilesRoot "" (WalkItem.tarItem "a.tar" ([tm1] ++ tmBad :: [tm3]) :: [])
      = ((scanTarFiles "" [tm1]).1 ++ (findFilesRoot "" []).1,
          (findFilesRoot "" []).2) ∧
    walkFilesModel ""
        ((WalkItem.tarItem "a.tar" ([tm1] ++ tmBad :: [tm3]) :: []) :: [rootB])
      = ((scanTarFiles "" [tm1]).1 ++ (findFilesRoot "" []).1)
          ++ walkFilesModel "" [rootB] :=
  tar_decode_isolated "" "a.tar" [tm1] tmBad [tm3] [] [rootB] (by decide)
    (by decide) (by decide) (by decide)

theorem parseTail_ne_oob (p source info : String) (size : Nat)
    (ps : List String) (n : Nat) :
    parseTail p source info size ps n ≠ PResult.oob := by
  intro h
  unfold parseTail at h
  split at h
  · cases h
  · split at h
    · cases h
    · cases h

/-- C10 (counterexample): `"foo.bar"` does pass the character whitelist with
fewer than five underscore-delimited fields, but it does NOT reach the
out-of-bounds accesses: Go evaluates `strconv.ParseInt(ps[0], 16, 64)` first,
`"foo.bar"` is not hexadecimal, and the decoder returns the parse error
before any `ps[len(ps)-5]` indexing. -/
theorem parse_oob_cex :
    Keep (filepathBase "foo.bar") = true ∧ numFields "foo.bar" < 5 ∧
    parseFilename "foo.bar" "" 0 = PResult.err ∧
    PResult.err ≠ PResult.oob := by decide

/-- C10 (as amended): `parseFilename` never goes out of bounds when the base
name has at least six underscore-delimited fields, nor — when a UPI filter
forces the UPI — at five fields; and the precondition is necessary: a short
name whose first field IS valid hexadecimal, such as `"33"`, passes the
whitelist and the source parse and then hits `ps[len(ps)-5]` with
`len(ps) = 1`, an index out of range (a runtime panic in Go). -/
theorem parse_bounds :
    (∀ (p u : String) (s : Nat),
      6 ≤ numFields p → parseFilename p u s ≠ PResult.oob) ∧
    (∀ (p u : String) (s : Nat),
      u ≠ "" → 5 ≤ numFields p → parseFilename p u s ≠ PResult.oob) ∧
    (Keep (filepathBase "33") = true ∧ numFields "33" < 5 ∧
      parseFilename "33" "" 0 = PResult.oob) := by
  refine ⟨?_, ?_, by decide⟩
  · intro p u s h6 hoob
    rw [show numFields p = (splitUnd (filepathBase p)).length from rfl] at h6
    simp only [parseFilename] at hoob
    split at hoob
    · cases hoob
    · split at hoob
      · cases hoob
      · split at hoob
        · omega
        · split at hoob
          · cases hoob
          · split at hoob
            · split at hoob
              · exact parseTail_ne_oob _ _ _ _ _ _ hoob
              · next hlt _ hge => omega
            · exact parseTail_ne_oob _ _ _ _ _ _ hoob
  · intro p u s hu h5 hoob
    rw [show numFields p = (splitUnd (filepathBase p)).length from rfl] at h5
    simp only [parseFilename] at hoob
    split at hoob
    · cases hoob
    · split at hoob
      · cases hoob
      · split at hoob
        · omega
        · split at hoob
          · cases hoob
          · split at hoob
            · next hlen =>
              exact hu (by
                cases u with
                | mk data =>
                  cases data with
                  | nil => rfl
                  | cons c t => simp [String.length] at hlen)
            · exact parseTail_ne_oob _ _ _ _ _ _ hoob

theorem parse_bounds_witness :
    (parseFilename "aa_bb_1_cc_dd_ee" "" 0 ≠ PResult.oob) ∧
    (parseFilename "aa_bb_1_cc_dd" "x" 0 ≠ PResult.oob) :=
  ⟨parse_bounds.1 "aa_bb_1_cc_dd_ee" "" 0 (by decide),
   parse_bounds.2.1 "aa_bb_1_cc_dd" "x" 0 (by decide) (by decide)⟩
